import Mathlib

/-!
Shallow embedding of the minesweeper core (`src/game.rs`) and proofs about it.

Modelling conventions:
  * `u32` coordinates and `usize` counters are embedded as `Nat`; the grid
    sizes involved are far below `2 ^ 32`, and where an overflow or underflow
    could occur at all it is noted at the definition it concerns.
  * The `HashMap<(u32, u32), Cell>` is embedded as the partial function
    `Coord → Option Cell`; a `none` lookup corresponds to the absent-key case,
    in which the Rust code (`cells[&(x, y)]` / `.unwrap()`) panics.
  * Fallible operations (ones that can panic) return `Option`; `none` models
    the panic.
  * The `f64` mouse position is embedded by its `u32` truncation (a pair of
    `Nat`s), which is all `mouse_click` ever observes of it.
  * The random source is embedded by passing the list of indices that
    `rand::seq::index::sample` would produce; the sampling contract (distinct
    indices below the cell count) becomes a hypothesis of the theorems.
    `sample` itself panics when `amount > length`, which `Field.new` models.
-/

namespace Minesweeper

/-- A grid coordinate `(x, y)`, embedding the Rust `(u32, u32)` key. -/
abbrev Coord := Nat × Nat

/-- `CellState` from `game.rs`: `Value(u8)`, `Empty`, `Bomb`, `DeathBomb`. -/
inductive CellState where
  | Value : Nat → CellState
  | Empty : CellState
  | Bomb : CellState
  | DeathBomb : CellState
deriving DecidableEq

/-- `Cell` from `game.rs`: a display state plus a hidden flag. -/
structure Cell where
  state : CellState
  hidden : Bool
deriving DecidableEq

/-- The cell storage: the embedding of `HashMap<(u32, u32), Cell>`. -/
abbrev Grid := Coord → Option Cell

/-- Pointwise insertion/overwrite into the map. -/
def updateG (g : Grid) (p : Coord) (c : Cell) : Grid :=
  fun q => if q = p then some c else g q

/-- `CELL_SIZE` from `game.rs` (pixels per cell, width and height). -/
def CELL_SIZE : Nat × Nat := (16, 16)

/-- All in-bounds coordinates, in the order the construction pass visits
them (`for y in 0..h { for x in 0..w { .. } }`). -/
def coordList (w h : Nat) : List Coord :=
  (List.range h).flatMap fun y => (List.range w).map fun x => (x, y)

/-- `Field::adjacent_coords`: the up-to-8 in-bounds neighbours of `(x, y)`,
produced by the clipped double loop
`for dy in (y-1).max(0)..(y+2).min(h) { for dx in (x-1).max(0)..(x+2).min(w) }`,
skipping the centre.  The Rust loop runs over `i64`; for natural `x, y` the
lower clip `(y-1).max(0)` coincides with truncated subtraction `y - 1`. -/
def adjacent_coords (w h x y : Nat) : List Coord :=
  (List.range' (y - 1) (min (y + 2) h - (y - 1))).flatMap fun dy =>
    (List.range' (x - 1) (min (x + 2) w - (x - 1))).filterMap fun dx =>
      if (dx, dy) = (x, y) then none else some (dx, dy)

/-- Whether the cell stored at `p` has state `Bomb` (`false` when the key is
absent; every use in the code is at an in-bounds, hence present, key). -/
def bombAt (g : Grid) (p : Coord) : Bool :=
  match g p with
  | some c => decide (c.state = CellState.Bomb)
  | none => false

/-- Whether the cell stored at `p` is hidden (`false` when the key is absent). -/
def hiddenAt (g : Grid) (p : Coord) : Bool :=
  match g p with
  | some c => c.hidden
  | none => false

/-- The state of the cell stored at `p`, if present. -/
def cellStateAt (g : Grid) (p : Coord) : Option CellState :=
  (g p).map Cell.state

/-- The bomb-neighbour count computed inside `Field::new`:
`adjacent_cells(x, y).filter(|c| c.state == Bomb).count()`. -/
def adjacentBombs (g : Grid) (w h x y : Nat) : Nat :=
  (adjacent_coords w h x y).countP fun q => bombAt g q

/-- The grid right after the insertion loop of `Field::new`: one cell per
in-bounds coordinate, `Bomb` when its row-major index was sampled, else
`Empty`, all hidden.  Coordinate `(x, y)` corresponds to index `y * w + x`
(the loop inserts at `(idx % w, idx / w)`). -/
def initialGrid (inds : List Nat) (w h : Nat) : Grid :=
  fun p =>
    if p.1 < w ∧ p.2 < h then
      some ⟨if p.2 * w + p.1 ∈ inds then CellState.Bomb else CellState.Empty, true⟩
    else none

/-- One iteration of the value-assignment loop in `Field::new`: skip bombs,
otherwise count bomb neighbours in the current grid and set `Value(n)` when
`n > 0`.  The `none` branch is unreachable (the pass only visits in-bounds
coordinates, all present); the Rust `cell_at` would panic there. -/
def assignStep (w h : Nat) (g : Grid) (p : Coord) : Grid :=
  match g p with
  | some c =>
    if c.state = CellState.Bomb then g
    else
      if 0 < adjacentBombs g w h p.1 p.2 then
        updateG g p ⟨CellState.Value (adjacentBombs g w h p.1 p.2), c.hidden⟩
      else g
  | none => g

/-- The whole value-assignment pass of `Field::new`, in loop order. -/
def assignValues (w h : Nat) (g : Grid) : Grid :=
  (coordList w h).foldl (assignStep w h) g

/-- `Field` from `game.rs`.  `size` is `(width, height)`; the texture vector
is rendering-only state with no bearing on the core logic and is omitted. -/
structure Field where
  cells : Grid
  size : Coord
  n_bombs : Nat
  n_hidden : Nat
  mouse : Nat × Nat

/-- The infallible part of `Field::new`, given the sampled bomb indices:
build the initial grid, set `n_hidden` to the number of inserted cells
(`cells.len()`, one per in-bounds coordinate), then run the value pass.
The fresh mouse position is `(0.0, 0.0)`. -/
def Field.build (inds : List Nat) (size : Coord) (bombs : Nat) : Field :=
  { cells := assignValues size.1 size.2 (initialGrid inds size.1 size.2)
    size := size
    n_bombs := bombs
    n_hidden := (coordList size.1 size.2).length
    mouse := (0, 0) }

/-- `Field::new`.  `rand::seq::index::sample(rng, w * h, bombs)` is its first
action and panics when `bombs > w * h` (modelled by `none`); otherwise the
construction cannot fail. -/
def Field.new (inds : List Nat) (size : Coord) (bombs : Nat) : Option Field :=
  if size.1 * size.2 < bombs then none
  else some (Field.build inds size bombs)

/-- The number of currently hidden cells of the grid (spec-side measure; the
code tracks it separately in `n_hidden`). -/
def hiddenCount (w h : Nat) (g : Grid) : Nat :=
  (coordList w h).countP fun p => hiddenAt g p

/-- The recursion of `Field::reveal`, indexed by fuel.  State is the pair
`(cells, n_hidden)`.  A call on a hidden cell clears its flag, recurses into
every neighbour when the state is `Empty` (the `for` loop is the `foldl`),
and decrements `n_hidden` afterwards.  The fuel only bounds the recursion
depth: once `fuel ≥ hiddenCount` the result no longer depends on it (proved
below), so `Field.revealAt` instantiates it with `hiddenCount + 1`.  The
`none` lookup branch models the position the Rust `cell_mut_at` would panic
at; recursive calls only ever visit in-bounds (present) keys, and the
top-level entry is guarded in `Field.reveal?`. -/
def revealFuel (w h : Nat) (fuel : Nat) (s : Grid × Nat) (p : Coord) : Grid × Nat :=
  match fuel with
  | 0 => s
  | fuel' + 1 =>
    match s.1 p with
    | none => s
    | some c =>
      if c.hidden then
        let s1 : Grid × Nat := (updateG s.1 p ⟨c.state, false⟩, s.2)
        let s2 : Grid × Nat :=
          if c.state = CellState.Empty then
            (adjacent_coords w h p.1 p.2).foldl (fun t q => revealFuel w h fuel' t q) s1
          else s1
        (s2.1, s2.2 - 1)
      else s

/-- The neighbour loop of `Field::reveal`, as a named function. -/
def revealList (w h : Nat) (fuel : Nat) (s : Grid × Nat) (l : List Coord) : Grid × Nat :=
  l.foldl (fun t q => revealFuel w h fuel t q) s

/-- `Field::reveal` at an in-bounds coordinate (total version). -/
def Field.revealAt (F : Field) (x y : Nat) : Field :=
  let s := revealFuel F.size.1 F.size.2 (hiddenCount F.size.1 F.size.2 F.cells + 1)
      (F.cells, F.n_hidden) (x, y)
  { F with cells := s.1, n_hidden := s.2 }

/-- `Field::reveal`.  Its first action, `cell_mut_at(x, y).unwrap()`, panics
when the coordinate is not a key of the map (modelled by `none`). -/
def Field.reveal? (F : Field) (x y : Nat) : Option Field :=
  if (F.cells (x, y)).isSome then some (F.revealAt x y) else none

/-- The shared body of `Field::lose` and `Field::win`: clear every cell's
hidden flag.  Note that `n_hidden` is NOT updated. -/
def revealAllCells (g : Grid) : Grid :=
  fun p => (g p).map fun c => ⟨c.state, false⟩

/-- `Field::lose`: reveal every cell (leaving `n_hidden` untouched). -/
def Field.lose (F : Field) : Field :=
  { F with cells := revealAllCells F.cells }

/-- `Field::win`: reveal every cell (leaving `n_hidden` untouched). -/
def Field.win (F : Field) : Field :=
  { F with cells := revealAllCells F.cells }

/-- `Field::reset`: rebuild via `Field::new` with the same size and bomb
count and fresh randomness (`inds`), keeping only the mouse position.
`none` models the panic `Field::new` can raise. -/
def Field.reset (F : Field) (inds : List Nat) : Option Field :=
  (Field.new inds F.size F.n_bombs).map fun F2 => { F2 with mouse := F.mouse }

/-- `Field::mouse_move`: record the pointer position. -/
def Field.mouse_move (F : Field) (p : Nat × Nat) : Field :=
  { F with mouse := p }

/-- The input events `Field::mouse_click` distinguishes: the left mouse
button, the R key, and everything else. -/
inductive ClickButton where
  | MouseLeft : ClickButton
  | KeyR : ClickButton
  | Other : ClickButton
deriving DecidableEq

/-- `Field::mouse_click`.  A left click maps the pointer to a grid coordinate
by integer division by `CELL_SIZE`, reveals it, then: a `Bomb` cell is turned
into `DeathBomb` and the field loses; otherwise `n_hidden == n_bombs` wins.
`none` models the panics (out-of-bounds lookup inside `reveal` / `cell_at`,
or the sampling panic inside `reset`).  `inds` is the fresh randomness a
reset would draw. -/
def Field.mouse_click (F : Field) (inds : List Nat) (b : ClickButton) : Option Field :=
  match b with
  | ClickButton.MouseLeft =>
    let x := F.mouse.1 / CELL_SIZE.1
    let y := F.mouse.2 / CELL_SIZE.2
    match F.reveal? x y with
    | none => none
    | some F1 =>
      match F1.cells (x, y) with
      | none => none
      | some c =>
        if c.state = CellState.Bomb then
          some (Field.lose { F1 with cells := updateG F1.cells (x, y) ⟨CellState.DeathBomb, c.hidden⟩ })
        else if F1.n_hidden = F1.n_bombs then some F1.win
        else some F1
  | ClickButton.KeyR => F.reset inds
  | ClickButton.Other => some F

/-- `g'` is obtained from `g` by clearing the hidden flag of some cells:
every key maps to the same cell, except that some cells got `hidden := false`.
States, key presence, and hence bomb placement are untouched. -/
def Evolves (g g' : Grid) : Prop :=
  ∀ q, g' q = g q ∨ ∃ c, g q = some c ∧ g' q = some ⟨c.state, false⟩

/-- The map is populated exactly at the in-bounds coordinates (the data-model
invariant "grid is fully populated"). -/
def DomG (w h : Nat) (g : Grid) : Prop :=
  ∀ p : Coord, (g p).isSome = true ↔ (p.1 < w ∧ p.2 < h)

/-- Spec-side counter invariant: `n_hidden` equals the number of cells whose
hidden flag is set. -/
def InvHidden (F : Field) : Prop :=
  F.n_hidden = hiddenCount F.size.1 F.size.2 F.cells

instance (F : Field) : Decidable (InvHidden F) :=
  inferInstanceAs (Decidable (F.n_hidden = hiddenCount F.size.1 F.size.2 F.cells))

/-- Whether the cell stored at `p` counts as a bomb for the conservation
invariant (`Bomb` or `DeathBomb`). -/
def bombOrDeathAt (g : Grid) (p : Coord) : Bool :=
  match g p with
  | some c => decide (c.state = CellState.Bomb) || decide (c.state = CellState.DeathBomb)
  | none => false

/-- Spec-side count, over a `w × h` grid, of cells whose state is `Bomb` or
`DeathBomb`. -/
def bombCountG (w h : Nat) (g : Grid) : Nat :=
  (coordList w h).countP fun p => bombOrDeathAt g p

/-- Spec-side count of cells of a field whose state is `Bomb` or `DeathBomb`. -/
def bombCount (F : Field) : Nat :=
  bombCountG F.size.1 F.size.2 F.cells

/-- Spec-side adjacency invariant: an `Empty` cell has no bomb-state
neighbour (true of every freshly constructed field). -/
def AdjacencySafe (w h : Nat) (g : Grid) : Prop :=
  ∀ p ∈ coordList w h, cellStateAt g p = some CellState.Empty →
    ∀ q ∈ adjacent_coords w h p.1 p.2, bombAt g q = false

instance (w h : Nat) (g : Grid) : Decidable (AdjacencySafe w h g) :=
  inferInstanceAs (Decidable (∀ p ∈ coordList w h,
    cellStateAt g p = some CellState.Empty →
      ∀ q ∈ adjacent_coords w h p.1 p.2, bombAt g q = false))

/-! ### Basic facts: updates, coordinate enumeration, adjacency -/

theorem updateG_self (g : Grid) (p : Coord) (c : Cell) : updateG g p c p = some c := by
  simp [updateG]

theorem updateG_ne (g : Grid) (p q : Coord) (c : Cell) (h : q ≠ p) : updateG g p c q = g q := by
  simp [updateG, h]

theorem mem_coordList {w h : Nat} {p : Coord} : p ∈ coordList w h ↔ p.1 < w ∧ p.2 < h := by
  cases p with
  | mk x y =>
    simp only [coordList, List.mem_flatMap, List.mem_map, List.mem_range]
    constructor
    · rintro ⟨b, hb, a, ha, he⟩
      cases he
      exact ⟨ha, hb⟩
    · rintro ⟨hx, hy⟩
      exact ⟨y, hy, x, hx, rfl⟩

theorem coordList_nodup (w h : Nat) : (coordList w h).Nodup := by
  unfold coordList
  rw [List.nodup_flatMap]
  constructor
  · intro y _
    exact List.Nodup.map (fun a b hab => congrArg Prod.fst hab) (List.nodup_range w)
  · apply List.Pairwise.imp _ (List.pairwise_lt_range h)
    intro a b hab
    intro q hqa hqb
    rcases List.mem_map.mp hqa with ⟨xa, _, rfl⟩
    rcases List.mem_map.mp hqb with ⟨xb, _, he⟩
    exact absurd (congrArg Prod.snd he) (by simpa using (Nat.ne_of_lt hab).symm)

theorem coordList_length (w h : Nat) : (coordList w h).length = h * w := by
  induction h with
  | zero => simp [coordList]
  | succ n ih =>
    unfold coordList at ih ⊢
    rw [List.range_succ, List.flatMap_append, List.length_append, ih]
    simp [Nat.succ_mul]

theorem mem_adjacent_coords {w h x y : Nat} {q : Coord} :
    q ∈ adjacent_coords w h x y ↔
      q ≠ (x, y) ∧ q.1 < w ∧ q.2 < h ∧
        x ≤ q.1 + 1 ∧ q.1 ≤ x + 1 ∧ y ≤ q.2 + 1 ∧ q.2 ≤ y + 1 := by
  cases q with
  | mk a b =>
    simp only [adjacent_coords, List.mem_flatMap, List.mem_filterMap, List.mem_range'_1]
    constructor
    · rintro ⟨dy, hdy, dx, hdx, hif⟩
      by_cases hc : (dx, dy) = (x, y)
      · rw [if_pos hc] at hif
        cases hif
      · rw [if_neg hc] at hif
        injection hif with hif
        cases hif
        refine ⟨hc, ?_, ?_, ?_, ?_, ?_, ?_⟩ <;> omega
    · rintro ⟨hne, hw, hh, h1, h2, h3, h4⟩
      refine ⟨b, by omega, a, by omega, ?_⟩
      rw [if_neg hne]

theorem adjacent_coords_inbounds {w h x y : Nat} {q : Coord}
    (hq : q ∈ adjacent_coords w h x y) : q.1 < w ∧ q.2 < h := by
  have := mem_adjacent_coords.mp hq
  exact ⟨this.2.1, this.2.2.1⟩

theorem adjacent_coords_ne {w h x y : Nat} {q : Coord}
    (hq : q ∈ adjacent_coords w h x y) : q ≠ (x, y) :=
  (mem_adjacent_coords.mp hq).1

theorem adjacent_coords_nodup (w h x y : Nat) : (adjacent_coords w h x y).Nodup := by
  unfold adjacent_coords
  rw [List.nodup_flatMap]
  constructor
  · intro dy _
    apply List.Nodup.filterMap
    · intro a a' b hb hb'
      by_cases hc : (a, dy) = (x, y)
      · rw [if_pos hc] at hb; cases hb
      · rw [if_neg hc] at hb
        by_cases hc' : (a', dy) = (x, y)
        · rw [if_pos hc'] at hb'; cases hb'
        · rw [if_neg hc'] at hb'
          injection hb with hb
          injection hb' with hb'
          rw [← hb'] at hb
          exact congrArg Prod.fst hb
    · exact List.nodup_range' ..
  · apply List.Pairwise.imp _ (List.pairwise_lt_range' ..)
    intro a b hab q hqa hqb
    rcases List.mem_filterMap.mp hqa with ⟨xa, _, ha⟩
    rcases List.mem_filterMap.mp hqb with ⟨xb, _, hb⟩
    by_cases hca : (xa, a) = (x, y)
    · rw [if_pos hca] at ha; cases ha
    · by_cases hcb : (xb, b) = (x, y)
      · rw [if_pos hcb] at hb; cases hb
      · rw [if_neg hca] at ha
        rw [if_neg hcb] at hb
        injection ha with ha
        injection hb with hb
        rw [← hb] at ha
        exact absurd (congrArg Prod.snd ha) (by simpa using Nat.ne_of_lt hab)

/-- Generic counting step: flipping one element of a `Nodup` list from
satisfying `P` to violating `Q` (everything else agreeing) drops the count
by exactly one. -/
theorem countP_update_true_false {l : List Coord} {P Q : Coord → Bool} {p : Coord}
    (hnd : l.Nodup) (hp : p ∈ l) (hagree : ∀ q ∈ l, q ≠ p → Q q = P q)
    (hP : P p = true) (hQ : Q p = false) :
    l.countP Q + 1 = l.countP P := by
  induction l with
  | nil => cases hp
  | cons a t ih =>
    rw [List.countP_cons, List.countP_cons]
    rcases List.mem_cons.mp hp with rfl | hpt
    · have hnt : p ∉ t := (List.nodup_cons.mp hnd).1
      have hct : t.countP Q = t.countP P := by
        apply List.countP_congr
        intro q hq
        rw [hagree q (List.mem_cons_of_mem _ hq) (fun e => hnt (e ▸ hq))]
      rw [hP, hQ, hct]
      simp
    · have ha : a ≠ p := fun e => (List.nodup_cons.mp hnd).1 (e ▸ hpt)
      rw [hagree a (List.mem_cons_self a t) ha]
      have := ih (List.nodup_cons.mp hnd).2 hpt
        (fun q hq hqp => hagree q (List.mem_cons_of_mem _ hq) hqp)
      omega

theorem hiddenCount_congr {w h : Nat} {g g' : Grid}
    (hpt : ∀ p, hiddenAt g' p = hiddenAt g p) :
    hiddenCount w h g' = hiddenCount w h g :=
  List.countP_congr fun p _ => by rw [hpt p]

theorem hiddenCount_updateG_unhide {w h : Nat} {g : Grid} {p : Coord} {c : Cell}
    (hin : p.1 < w ∧ p.2 < h) (hg : g p = some c) (hh : c.hidden = true) (st : CellState) :
    hiddenCount w h (updateG g p ⟨st, false⟩) + 1 = hiddenCount w h g := by
  apply countP_update_true_false (coordList_nodup w h) (mem_coordList.mpr hin)
  · intro q _ hqp
    simp [hiddenAt, updateG_ne _ _ _ _ hqp]
  · simp [hiddenAt, hg, hh]
  · simp [hiddenAt, updateG_self]

theorem hiddenCount_pos {w h : Nat} {g : Grid} {p : Coord}
    (hin : p.1 < w ∧ p.2 < h) (hp : hiddenAt g p = true) :
    1 ≤ hiddenCount w h g := by
  have : 0 < hiddenCount w h g :=
    List.countP_pos_iff.mpr ⟨p, mem_coordList.mpr hin, hp⟩
  omega

/-! ### Unfolding lemmas for the reveal recursion -/

theorem revealFuel_zero (w h : Nat) (s : Grid × Nat) (p : Coord) :
    revealFuel w h 0 s p = s := rfl

theorem revealFuel_succ_none {w h fuel : Nat} {g : Grid} {nh : Nat} {p : Coord}
    (hp : g p = none) : revealFuel w h (fuel + 1) (g, nh) p = (g, nh) := by
  unfold revealFuel
  dsimp only
  rw [hp]

theorem revealFuel_succ_notHidden {w h fuel : Nat} {g : Grid} {nh : Nat} {p : Coord} {c : Cell}
    (hp : g p = some c) (hh : c.hidden = false) :
    revealFuel w h (fuel + 1) (g, nh) p = (g, nh) := by
  unfold revealFuel
  dsimp only
  rw [hp]
  simp [hh]

theorem revealFuel_succ_hidden_empty {w h fuel : Nat} {g : Grid} {nh : Nat} {p : Coord} {c : Cell}
    (hp : g p = some c) (hh : c.hidden = true) (hs : c.state = CellState.Empty) :
    revealFuel w h (fuel + 1) (g, nh) p =
      ((revealList w h fuel (updateG g p ⟨c.state, false⟩, nh) (adjacent_coords w h p.1 p.2)).1,
       (revealList w h fuel (updateG g p ⟨c.state, false⟩, nh) (adjacent_coords w h p.1 p.2)).2
         - 1) := by
  unfold revealFuel
  dsimp only
  rw [hp]
  simp only [hh, if_true, hs, if_pos]
  rfl

theorem revealFuel_succ_hidden_notEmpty {w h fuel : Nat} {g : Grid} {nh : Nat} {p : Coord} {c : Cell}
    (hp : g p = some c) (hh : c.hidden = true) (hs : ¬ c.state = CellState.Empty) :
    revealFuel w h (fuel + 1) (g, nh) p = (updateG g p ⟨c.state, false⟩, nh - 1) := by
  unfold revealFuel
  dsimp only
  rw [hp]
  simp only [hh, if_true]
  rw [if_neg hs]

theorem revealList_nil (w h fuel : Nat) (s : Grid × Nat) : revealList w h fuel s [] = s := rfl

theorem revealList_cons (w h fuel : Nat) (s : Grid × Nat) (q : Coord) (l : List Coord) :
    revealList w h fuel s (q :: l) = revealList w h fuel (revealFuel w h fuel s q) l := rfl

/-! ### Grid evolution: a reveal pass only clears hidden flags -/

theorem evolves_refl (g : Grid) : Evolves g g := fun _ => Or.inl rfl

theorem evolves_trans {g g' g'' : Grid} (h1 : Evolves g g') (h2 : Evolves g' g'') :
    Evolves g g'' := by
  intro q
  rcases h2 q with h2q | ⟨c, hc, hc'⟩
  · rw [h2q]
    exact h1 q
  · rcases h1 q with h1q | ⟨d, hd, hd'⟩
    · rw [h1q] at hc
      exact Or.inr ⟨c, hc, hc'⟩
    · have hcd : c = ⟨d.state, false⟩ := by
        rw [hd'] at hc
        exact (Option.some.inj hc).symm
      subst hcd
      exact Or.inr ⟨d, hd, hc'⟩

theorem evolves_updateG {g : Grid} {p : Coord} {c : Cell} (hp : g p = some c) :
    Evolves g (updateG g p ⟨c.state, false⟩) := by
  intro q
  by_cases hq : q = p
  · subst hq
    exact Or.inr ⟨c, hp, updateG_self ..⟩
  · exact Or.inl (updateG_ne _ _ _ _ hq)

theorem Evolves.isSome_eq {g g' : Grid} (h : Evolves g g') (q : Coord) :
    (g' q).isSome = (g q).isSome := by
  rcases h q with hq | ⟨c, hc, hc'⟩
  · rw [hq]
  · rw [hc, hc']
    rfl

theorem Evolves.cellStateAt_eq {g g' : Grid} (h : Evolves g g') (q : Coord) :
    cellStateAt g' q = cellStateAt g q := by
  rcases h q with hq | ⟨c, hc, hc'⟩
  · rw [cellStateAt, cellStateAt, hq]
  · rw [cellStateAt, cellStateAt, hc, hc']
    rfl

theorem Evolves.bombAt_eq {g g' : Grid} (h : Evolves g g') (q : Coord) :
    bombAt g' q = bombAt g q := by
  rcases h q with hq | ⟨c, hc, hc'⟩
  · rw [bombAt, bombAt, hq]
  · simp [bombAt, hc, hc']

theorem Evolves.hiddenAt_mono {g g' : Grid} (h : Evolves g g') (q : Coord)
    (hq : hiddenAt g' q = true) : hiddenAt g q = true := by
  rcases h q with h' | ⟨c, hc, hc'⟩
  · rw [hiddenAt, ← h']
    exact hq
  · rw [hiddenAt, hc', ] at hq
    cases hq

theorem Evolves.hiddenAt_false {g g' : Grid} (h : Evolves g g') (q : Coord)
    (hq : hiddenAt g q = false) : hiddenAt g' q = false := by
  rcases h q with h' | ⟨c, hc, hc'⟩
  · rw [hiddenAt, h']
    exact hq
  · simp [hiddenAt, hc']

theorem Evolves.hiddenCount_le {w h : Nat} {g g' : Grid} (he : Evolves g g') :
    hiddenCount w h g' ≤ hiddenCount w h g :=
  List.countP_mono_left fun q _ hq => he.hiddenAt_mono q hq

theorem Evolves.domG {w h : Nat} {g g' : Grid} (he : Evolves g g') (hd : DomG w h g) :
    DomG w h g' := by
  intro p
  rw [he.isSome_eq p]
  exact hd p

theorem Evolves.some_state {g g' : Grid} (h : Evolves g g') {p : Coord} {c : Cell}
    (hp : g p = some c) : ∃ hid : Bool, g' p = some ⟨c.state, hid⟩ := by
  rcases h p with h' | ⟨d, hd, hd'⟩
  · exact ⟨c.hidden, by rw [h', hp]⟩
  · rw [hp] at hd
    have hdc : c = d := Option.some.inj hd
    subst hdc
    exact ⟨false, hd'⟩

theorem Evolves.adjacencySafe {w h : Nat} {g g' : Grid} (hev : Evolves g g')
    (ha : AdjacencySafe w h g) : AdjacencySafe w h g' := by
  intro p hp hst q hq
  rw [hev.cellStateAt_eq p] at hst
  rw [hev.bombAt_eq q]
  exact ha p hp hst q hq

/-- The reveal recursion only clears hidden flags (both the single-cell entry
and the neighbour loop). -/
theorem reveal_evolves (w h : Nat) :
    ∀ fuel, (∀ s p, Evolves s.1 (revealFuel w h fuel s p).1) ∧
      (∀ s l, Evolves s.1 (revealList w h fuel s l).1) := by
  intro fuel
  induction fuel with
  | zero =>
    refine ⟨fun s p => evolves_refl _, ?_⟩
    intro s l
    induction l generalizing s with
    | nil => exact evolves_refl _
    | cons q t ih =>
      rw [revealList_cons, revealFuel_zero]
      exact ih s
  | succ n ih =>
    have helem : ∀ s p, Evolves s.1 (revealFuel w h (n + 1) s p).1 := by
      intro s p
      obtain ⟨g, nh⟩ := s
      cases hp : g p with
      | none =>
        rw [revealFuel_succ_none hp]
        exact evolves_refl _
      | some c =>
        cases hh : c.hidden with
        | false =>
          rw [revealFuel_succ_notHidden hp hh]
          exact evolves_refl _
        | true =>
          by_cases hs : c.state = CellState.Empty
          · rw [revealFuel_succ_hidden_empty hp hh hs]
            exact evolves_trans (evolves_updateG hp) (ih.2 _ _)
          · rw [revealFuel_succ_hidden_notEmpty hp hh hs]
            exact evolves_updateG hp
    refine ⟨helem, ?_⟩
    intro s l
    induction l generalizing s with
    | nil => exact evolves_refl _
    | cons q t iht =>
      rw [revealList_cons]
      exact evolves_trans (helem s q) (iht _)

theorem revealFuel_evolves (w h fuel : Nat) (s : Grid × Nat) (p : Coord) :
    Evolves s.1 (revealFuel w h fuel s p).1 :=
  (reveal_evolves w h fuel).1 s p

theorem revealList_evolves (w h fuel : Nat) (s : Grid × Nat) (l : List Coord) :
    Evolves s.1 (revealList w h fuel s l).1 :=
  (reveal_evolves w h fuel).2 s l

/-! ### Bookkeeping: the number of decrements equals the number of flips -/

/-- On a fully populated grid, with enough fuel and no pending underflow,
a reveal call decrements the counter exactly by the number of cells it
flips from hidden to revealed:
`result.2 + hiddenCount before = nh + hiddenCount after`. -/
theorem reveal_account (w h : Nat) :
    ∀ fuel,
      (∀ g nh p, DomG w h g → hiddenCount w h g ≤ nh → hiddenCount w h g ≤ fuel →
        (revealFuel w h fuel (g, nh) p).2 + hiddenCount w h g
          = nh + hiddenCount w h (revealFuel w h fuel (g, nh) p).1) ∧
      (∀ g nh l, DomG w h g → hiddenCount w h g ≤ nh → hiddenCount w h g ≤ fuel →
        (revealList w h fuel (g, nh) l).2 + hiddenCount w h g
          = nh + hiddenCount w h (revealList w h fuel (g, nh) l).1) := by
  intro fuel
  induction fuel with
  | zero =>
    refine ⟨fun g nh p _ _ _ => rfl, ?_⟩
    intro g nh l hdom hle hf
    induction l generalizing g nh with
    | nil => rfl
    | cons q t ih =>
      rw [revealList_cons, revealFuel_zero]
      exact ih g nh hdom hle hf
  | succ n ih =>
    have helem : ∀ g nh p, DomG w h g → hiddenCount w h g ≤ nh →
        hiddenCount w h g ≤ n + 1 →
        (revealFuel w h (n + 1) (g, nh) p).2 + hiddenCount w h g
          = nh + hiddenCount w h (revealFuel w h (n + 1) (g, nh) p).1 := by
      intro g nh p hdom hle hf
      cases hp : g p with
      | none =>
        rw [revealFuel_succ_none hp]
      | some c =>
        cases hh : c.hidden with
        | false => rw [revealFuel_succ_notHidden hp hh]
        | true =>
          have hin : p.1 < w ∧ p.2 < h := by
            have := (hdom p).mp (by rw [hp]; rfl)
            exact this
          have hflip := hiddenCount_updateG_unhide hin hp hh c.state
          have hhp : hiddenAt g p = true := by rw [hiddenAt, hp]; exact hh
          have hpos : 1 ≤ hiddenCount w h g := hiddenCount_pos hin hhp
          set g1 := updateG g p ⟨c.state, false⟩ with hg1
          have hdom1 : DomG w h g1 := (evolves_updateG hp).domG hdom
          by_cases hs : c.state = CellState.Empty
          · rw [revealFuel_succ_hidden_empty hp hh hs, ← hg1]
            dsimp only
            have hlist := ih.2 g1 nh (adjacent_coords w h p.1 p.2) hdom1
              (by omega) (by omega)
            have hmono : hiddenCount w h
                  (revealList w h n (g1, nh) (adjacent_coords w h p.1 p.2)).1
                ≤ hiddenCount w h g1 :=
              (revealList_evolves w h n (g1, nh) _).hiddenCount_le
            omega
          · rw [revealFuel_succ_hidden_notEmpty hp hh hs, ← hg1]
            dsimp only
            omega
    refine ⟨helem, ?_⟩
    intro g nh l hdom hle hf
    induction l generalizing g nh with
    | nil => rfl
    | cons q t iht =>
      rw [revealList_cons]
      have he := helem g nh q hdom hle hf
      have hev := revealFuel_evolves w h (n + 1) (g, nh) q
      rcases hsq : revealFuel w h (n + 1) (g, nh) q with ⟨g2, nh2⟩
      rw [hsq] at he hev
      have hmono : hiddenCount w h g2 ≤ hiddenCount w h g := hev.hiddenCount_le
      have hdom' : DomG w h g2 := hev.domG hdom
      have ht := iht g2 nh2 hdom' (by dsimp only at he; omega) (by omega)
      dsimp only at he
      omega

/-! ### Termination: the result is fuel-independent once fuel covers the
hidden-cell count (the hidden flag is the visited set) -/

theorem reveal_stable (w h : Nat) :
    ∀ n, (∀ g nh p f1 f2, DomG w h g → hiddenCount w h g ≤ n →
            hiddenCount w h g ≤ f1 → hiddenCount w h g ≤ f2 →
            revealFuel w h f1 (g, nh) p = revealFuel w h f2 (g, nh) p) ∧
         (∀ g nh l f1 f2, DomG w h g → hiddenCount w h g ≤ n →
            hiddenCount w h g ≤ f1 → hiddenCount w h g ≤ f2 →
            revealList w h f1 (g, nh) l = revealList w h f2 (g, nh) l) := by
  intro n
  induction n using Nat.strong_induction_on with
  | _ n ih =>
    have helem : ∀ g nh p f1 f2, DomG w h g → hiddenCount w h g ≤ n →
        hiddenCount w h g ≤ f1 → hiddenCount w h g ≤ f2 →
        revealFuel w h f1 (g, nh) p = revealFuel w h f2 (g, nh) p := by
      intro g nh p f1 f2 hdom hn h1 h2
      rcases Nat.eq_zero_or_pos (hiddenCount w h g) with hz | hpos
      · have hval : ∀ f, revealFuel w h f (g, nh) p = (g, nh) := by
          intro f
          cases f with
          | zero => rfl
          | succ m =>
            cases hp : g p with
            | none => exact revealFuel_succ_none hp
            | some c =>
              have hin : p.1 < w ∧ p.2 < h := (hdom p).mp (by rw [hp]; rfl)
              cases hh : c.hidden with
              | false => exact revealFuel_succ_notHidden hp hh
              | true =>
                have hhp : hiddenAt g p = true := by rw [hiddenAt, hp]; exact hh
                have := hiddenCount_pos hin hhp
                omega
        rw [hval f1, hval f2]
      · obtain ⟨a, rfl⟩ : ∃ a, f1 = a + 1 := ⟨f1 - 1, by omega⟩
        obtain ⟨b, rfl⟩ : ∃ b, f2 = b + 1 := ⟨f2 - 1, by omega⟩
        cases hp : g p with
        | none => rw [revealFuel_succ_none hp, revealFuel_succ_none hp]
        | some c =>
          cases hh : c.hidden with
          | false => rw [revealFuel_succ_notHidden hp hh, revealFuel_succ_notHidden hp hh]
          | true =>
            have hin : p.1 < w ∧ p.2 < h := (hdom p).mp (by rw [hp]; rfl)
            have hflip := hiddenCount_updateG_unhide hin hp hh c.state
            set g1 := updateG g p ⟨c.state, false⟩ with hg1
            have hdom1 : DomG w h g1 := (evolves_updateG hp).domG hdom
            by_cases hs : c.state = CellState.Empty
            · rw [revealFuel_succ_hidden_empty hp hh hs,
                revealFuel_succ_hidden_empty hp hh hs, ← hg1]
              have hlist := (ih (n - 1) (by omega)).2 g1 nh
                (adjacent_coords w h p.1 p.2) a b hdom1 (by omega) (by omega) (by omega)
              rw [hlist]
            · rw [revealFuel_succ_hidden_notEmpty hp hh hs,
                revealFuel_succ_hidden_notEmpty hp hh hs]
    refine ⟨helem, ?_⟩
    intro g nh l f1 f2 hdom hn h1 h2
    induction l generalizing g nh with
    | nil => rfl
    | cons q t iht =>
      rw [revealList_cons, revealList_cons]
      rw [← helem g nh q f1 f2 hdom hn h1 h2]
      have hev := revealFuel_evolves w h f1 (g, nh) q
      rcases hsq : revealFuel w h f1 (g, nh) q with ⟨g2, nh2⟩
      rw [hsq] at hev
      have hmono : hiddenCount w h g2 ≤ hiddenCount w h g := hev.hiddenCount_le
      exact iht g2 nh2 (hev.domG hdom) (by omega) (by omega) (by omega)

/-! ### A cascade started on a non-bomb cell never touches a bomb cell -/

theorem reveal_protects (w h : Nat) :
    ∀ fuel,
      (∀ g nh p, DomG w h g → AdjacencySafe w h g →
        (∀ c, g p = some c → c.state ≠ CellState.Bomb) →
        ∀ q, bombAt g q = true → (revealFuel w h fuel (g, nh) p).1 q = g q) ∧
      (∀ g nh l, DomG w h g → AdjacencySafe w h g →
        (∀ r ∈ l, ∀ c, g r = some c → c.state ≠ CellState.Bomb) →
        ∀ q, bombAt g q = true → (revealList w h fuel (g, nh) l).1 q = g q) := by
  intro fuel
  induction fuel with
  | zero =>
    refine ⟨fun g nh p _ _ _ q _ => rfl, ?_⟩
    intro g nh l hdom hsafe hnb q hq
    induction l generalizing g nh with
    | nil => rfl
    | cons r t ih =>
      rw [revealList_cons, revealFuel_zero]
      exact ih g nh hdom hsafe (fun r' hr' => hnb r' (List.mem_cons_of_mem _ hr')) hq
  | succ n ihn =>
    have helem : ∀ g nh p, DomG w h g → AdjacencySafe w h g →
        (∀ c, g p = some c → c.state ≠ CellState.Bomb) →
        ∀ q, bombAt g q = true → (revealFuel w h (n + 1) (g, nh) p).1 q = g q := by
      intro g nh p hdom hsafe hnb q hq
      cases hp : g p with
      | none => rw [revealFuel_succ_none hp]
      | some c =>
        cases hh : c.hidden with
        | false => rw [revealFuel_succ_notHidden hp hh]
        | true =>
          have hcb : c.state ≠ CellState.Bomb := hnb c hp
          have hqp : q ≠ p := by
            intro e
            subst e
            rw [bombAt, hp] at hq
            exact hcb (of_decide_eq_true hq)
          have hup : updateG g p ⟨c.state, false⟩ q = g q := updateG_ne _ _ _ _ hqp
          set g1 := updateG g p ⟨c.state, false⟩ with hg1
          have hev1 : Evolves g g1 := evolves_updateG hp
          by_cases hs : c.state = CellState.Empty
          · rw [revealFuel_succ_hidden_empty hp hh hs]
            have hpmem : p ∈ coordList w h :=
              mem_coordList.mpr ((hdom p).mp (by rw [hp]; rfl))
            have hadj : ∀ r ∈ adjacent_coords w h p.1 p.2, bombAt g r = false :=
              hsafe p hpmem (by simp [cellStateAt, hp, hs])
            have hnb1 : ∀ r ∈ adjacent_coords w h p.1 p.2, ∀ c', g1 r = some c' →
                c'.state ≠ CellState.Bomb := by
              intro r hr c' hr' hbomb
              have : bombAt g1 r = true := by simp [bombAt, hr', hbomb]
              rw [hev1.bombAt_eq r, hadj r hr] at this
              cases this
            have := ihn.2 g1 nh (adjacent_coords w h p.1 p.2)
              (hev1.domG hdom) (hev1.adjacencySafe hsafe) hnb1 q
              (by rw [hev1.bombAt_eq q, hq])
            rw [← hg1]
            dsimp only
            rw [this, hup]
          · rw [revealFuel_succ_hidden_notEmpty hp hh hs]
            dsimp only
            exact hup
    refine ⟨helem, ?_⟩
    intro g nh l hdom hsafe hnb q hq
    induction l generalizing g nh with
    | nil => rfl
    | cons r t iht =>
      rw [revealList_cons]
      have hhead := helem g nh r hdom hsafe (hnb r (List.mem_cons_self r t)) q hq
      have hev := revealFuel_evolves w h (n + 1) (g, nh) r
      rcases hsr : revealFuel w h (n + 1) (g, nh) r with ⟨g2, nh2⟩
      rw [hsr] at hhead hev
      dsimp only at hhead hev
      have htail := iht g2 nh2 (hev.domG hdom) (hev.adjacencySafe hsafe)
        (by
          intro r' hr' c' hc' hbomb
          have hst := hev.cellStateAt_eq r'
          rw [cellStateAt, hc'] at hst
          cases hg' : g r' with
          | none => rw [cellStateAt, hg'] at hst; cases hst
          | some d =>
            rw [cellStateAt, hg'] at hst
            have : c'.state = d.state := by
              simpa using hst
            exact hnb r' (List.mem_cons_of_mem _ hr') d hg' (by rw [← this, hbomb]))
        (by rw [hev.bombAt_eq q, hq])
      rw [htail, hhead]

/-! ### A reveal call leaves its own target revealed -/

theorem revealFuel_unhides {w h fuel : Nat} {g : Grid} {nh : Nat} {q : Coord}
    (hdom : DomG w h g) (hf : hiddenCount w h g ≤ fuel) :
    hiddenAt (revealFuel w h fuel (g, nh) q).1 q = false := by
  cases hq : g q with
  | none =>
    have : ∀ f, (revealFuel w h f (g, nh) q).1 q = g q := by
      intro f
      cases f with
      | zero => rfl
      | succ m => rw [revealFuel_succ_none hq]
    rw [hiddenAt, this fuel, hq]
  | some c =>
    cases hh : c.hidden with
    | false =>
      cases fuel with
      | zero => rw [revealFuel_zero]; dsimp only; rw [hiddenAt, hq]; exact hh
      | succ m =>
        rw [revealFuel_succ_notHidden hq hh]; dsimp only; rw [hiddenAt, hq]; exact hh
    | true =>
      have hin : q.1 < w ∧ q.2 < h := (hdom q).mp (by rw [hq]; rfl)
      have hhq : hiddenAt g q = true := by rw [hiddenAt, hq]; exact hh
      have hpos : 1 ≤ hiddenCount w h g := hiddenCount_pos hin hhq
      obtain ⟨m, rfl⟩ : ∃ m, fuel = m + 1 := ⟨fuel - 1, by omega⟩
      have hupd : hiddenAt (updateG g q ⟨c.state, false⟩) q = false := by
        rw [hiddenAt, updateG_self]
      by_cases hs : c.state = CellState.Empty
      · rw [revealFuel_succ_hidden_empty hq hh hs]
        exact (revealList_evolves w h m (updateG g q ⟨c.state, false⟩, nh)
          (adjacent_coords w h q.1 q.2)).hiddenAt_false q hupd
      · rw [revealFuel_succ_hidden_notEmpty hq hh hs]
        exact hupd

theorem revealList_unhides {w h fuel : Nat} {g : Grid} {nh : Nat} {l : List Coord}
    (hdom : DomG w h g) (hf : hiddenCount w h g ≤ fuel) :
    ∀ q ∈ l, hiddenAt (revealList w h fuel (g, nh) l).1 q = false := by
  induction l generalizing g nh with
  | nil => intro q hq; cases hq
  | cons r t ih =>
    intro q hq
    rw [revealList_cons]
    have hev := revealFuel_evolves w h fuel (g, nh) r
    have hdom' := hev.domG hdom
    have hle : hiddenCount w h (revealFuel w h fuel (g, nh) r).1 ≤ fuel :=
      le_trans hev.hiddenCount_le hf
    rcases List.mem_cons.mp hq with rfl | hqt
    · have hhead : hiddenAt (revealFuel w h fuel (g, nh) q).1 q = false :=
        revealFuel_unhides hdom hf
      exact (revealList_evolves w h fuel (revealFuel w h fuel (g, nh) q) t).hiddenAt_false
        q hhead
    · exact ih hdom' hle q hqt

/-! ### The value-assignment pass of construction -/

theorem assignStep_ne {w h : Nat} {g : Grid} {r q : Coord} (hq : q ≠ r) :
    assignStep w h g r q = g q := by
  unfold assignStep
  cases hgr : g r with
  | none => rfl
  | some c =>
    dsimp only
    by_cases hb : c.state = CellState.Bomb
    · rw [if_pos hb]
    · rw [if_neg hb]
      by_cases hn : 0 < adjacentBombs g w h r.1 r.2
      · rw [if_pos hn]
        exact updateG_ne _ _ _ _ hq
      · rw [if_neg hn]

theorem assignStep_isSome (w h : Nat) (g : Grid) (r q : Coord) :
    ((assignStep w h g r) q).isSome = (g q).isSome := by
  by_cases hq : q = r
  · subst hq
    unfold assignStep
    cases hgr : g q with
    | none => dsimp only; rw [hgr]
    | some c =>
      dsimp only
      by_cases hb : c.state = CellState.Bomb
      · rw [if_pos hb, hgr]
      · rw [if_neg hb]
        by_cases hn : 0 < adjacentBombs g w h q.1 q.2
        · rw [if_pos hn, updateG_self]
          rfl
        · rw [if_neg hn, hgr]
  · rw [assignStep_ne hq]

theorem assignStep_hiddenAt (w h : Nat) (g : Grid) (r q : Coord) :
    hiddenAt (assignStep w h g r) q = hiddenAt g q := by
  by_cases hq : q = r
  · subst hq
    unfold hiddenAt
    unfold assignStep
    cases hgr : g q with
    | none => dsimp only; rw [hgr]
    | some c =>
      dsimp only
      by_cases hb : c.state = CellState.Bomb
      · rw [if_pos hb, hgr]
      · rw [if_neg hb]
        by_cases hn : 0 < adjacentBombs g w h q.1 q.2
        · rw [if_pos hn, updateG_self]
        · rw [if_neg hn, hgr]
  · rw [hiddenAt, assignStep_ne hq, hiddenAt]

theorem assignStep_bombAt (w h : Nat) (g : Grid) (r q : Coord) :
    bombAt (assignStep w h g r) q = bombAt g q := by
  by_cases hq : q = r
  · subst hq
    unfold bombAt
    unfold assignStep
    cases hgr : g q with
    | none => dsimp only; rw [hgr]
    | some c =>
      dsimp only
      by_cases hb : c.state = CellState.Bomb
      · rw [if_pos hb, hgr]
      · rw [if_neg hb]
        by_cases hn : 0 < adjacentBombs g w h q.1 q.2
        · rw [if_pos hn, updateG_self]
          simp [hb]
        · rw [if_neg hn, hgr]
  · rw [bombAt, assignStep_ne hq, bombAt]

theorem assignList_notMem {w h : Nat} {l : List Coord} {g : Grid} {q : Coord}
    (hq : q ∉ l) : (l.foldl (assignStep w h) g) q = g q := by
  induction l generalizing g with
  | nil => rfl
  | cons r t ih =>
    rw [List.foldl_cons, ih (fun hqt => hq (List.mem_cons_of_mem _ hqt)),
      assignStep_ne (fun e => hq (by rw [e]; exact List.mem_cons_self r t))]

theorem assignList_isSome (w h : Nat) (l : List Coord) (g : Grid) (q : Coord) :
    ((l.foldl (assignStep w h) g) q).isSome = (g q).isSome := by
  induction l generalizing g with
  | nil => rfl
  | cons r t ih =>
    rw [List.foldl_cons, ih, assignStep_isSome]

theorem assignList_hiddenAt (w h : Nat) (l : List Coord) (g : Grid) (q : Coord) :
    hiddenAt (l.foldl (assignStep w h) g) q = hiddenAt g q := by
  induction l generalizing g with
  | nil => rfl
  | cons r t ih =>
    rw [List.foldl_cons, ih, assignStep_hiddenAt]

theorem assignList_bombAt (w h : Nat) (l : List Coord) (g : Grid) (q : Coord) :
    bombAt (l.foldl (assignStep w h) g) q = bombAt g q := by
  induction l generalizing g with
  | nil => rfl
  | cons r t ih =>
    rw [List.foldl_cons, ih, assignStep_bombAt]

/-- The value of one assignment step at its own coordinate. -/
theorem assignStep_self {w h : Nat} {g : Grid} {p : Coord} :
    assignStep w h g p p =
      match g p with
      | none => none
      | some c =>
        if c.state = CellState.Bomb then some c
        else if 0 < adjacentBombs g w h p.1 p.2 then
          some ⟨CellState.Value (adjacentBombs g w h p.1 p.2), c.hidden⟩
        else some c := by
  unfold assignStep
  cases hgc : g p with
  | none => dsimp only; rw [hgc]
  | some c =>
    dsimp only
    by_cases hb : c.state = CellState.Bomb
    · rw [if_pos hb, if_pos hb, hgc]
    · rw [if_neg hb, if_neg hb]
      by_cases hn : 0 < adjacentBombs g w h p.1 p.2
      · rw [if_pos hn, if_pos hn, updateG_self]
      · rw [if_neg hn, if_neg hn, hgc]

/-- The sequential value pass computes, at every visited coordinate, exactly
the one-step assignment over the original grid: earlier steps touch other
coordinates only and never change bomb placement, so the bomb-neighbour
count each step sees equals the count in the original grid. -/
theorem assignValues_at {w h : Nat} (g : Grid) {p : Coord} (hp : p ∈ coordList w h) :
    assignValues w h g p =
      match g p with
      | none => none
      | some c =>
        if c.state = CellState.Bomb then some c
        else if 0 < adjacentBombs g w h p.1 p.2 then
          some ⟨CellState.Value (adjacentBombs g w h p.1 p.2), c.hidden⟩
        else some c := by
  obtain ⟨l1, l2, hsplit⟩ := List.append_of_mem hp
  have hnd : (l1 ++ p :: l2).Nodup := hsplit ▸ coordList_nodup w h
  have hp1 : p ∉ l1 := by
    have := (List.nodup_append.mp hnd).2.2
    intro hmem
    exact this hmem (List.mem_cons_self p l2)
  have hp2 : p ∉ l2 := ((List.nodup_cons.mp (List.nodup_append.mp hnd).2.1)).1
  unfold assignValues
  rw [hsplit, List.foldl_append, List.foldl_cons]
  have hgp : (l1.foldl (assignStep w h) g) p = g p := assignList_notMem hp1
  have hadj : adjacentBombs (l1.foldl (assignStep w h) g) w h p.1 p.2
      = adjacentBombs g w h p.1 p.2 :=
    List.countP_congr fun q _ => by rw [assignList_bombAt]
  rw [assignList_notMem hp2, assignStep_self, hgp, hadj]

/-! ### Facts about freshly built fields -/

theorem initialGrid_inbounds {inds : List Nat} {w h : Nat} {p : Coord}
    (hp : p.1 < w ∧ p.2 < h) :
    initialGrid inds w h p =
      some ⟨if p.2 * w + p.1 ∈ inds then CellState.Bomb else CellState.Empty, true⟩ := by
  rw [initialGrid, if_pos hp]

theorem initialGrid_oob {inds : List Nat} {w h : Nat} {p : Coord}
    (hp : ¬ (p.1 < w ∧ p.2 < h)) : initialGrid inds w h p = none := by
  rw [initialGrid, if_neg hp]

theorem build_cells (inds : List Nat) (sz : Coord) (bombs : Nat) :
    (Field.build inds sz bombs).cells
      = assignValues sz.1 sz.2 (initialGrid inds sz.1 sz.2) := rfl

theorem build_dom (inds : List Nat) (sz : Coord) (bombs : Nat) :
    DomG sz.1 sz.2 (Field.build inds sz bombs).cells := by
  intro p
  rw [build_cells]
  show ((assignValues sz.1 sz.2 (initialGrid inds sz.1 sz.2)) p).isSome = true ↔ _
  unfold assignValues
  rw [assignList_isSome]
  by_cases hp : p.1 < sz.1 ∧ p.2 < sz.2
  · rw [initialGrid_inbounds hp]
    simpa using hp
  · rw [initialGrid_oob hp]
    simpa using hp

theorem build_bombAt (inds : List Nat) (sz : Coord) (bombs : Nat) (q : Coord) :
    bombAt (Field.build inds sz bombs).cells q
      = bombAt (initialGrid inds sz.1 sz.2) q := by
  rw [build_cells]
  exact assignList_bombAt ..

theorem build_hiddenAt (inds : List Nat) (sz : Coord) (bombs : Nat) (q : Coord)
    (hq : q.1 < sz.1 ∧ q.2 < sz.2) :
    hiddenAt (Field.build inds sz bombs).cells q = true := by
  rw [build_cells]
  show hiddenAt (assignValues sz.1 sz.2 (initialGrid inds sz.1 sz.2)) q = true
  unfold assignValues
  rw [assignList_hiddenAt, hiddenAt, initialGrid_inbounds hq]

/-- A fresh field satisfies the counter invariant: all cells are hidden and
`n_hidden` is the number of cells. -/
theorem build_invHidden (inds : List Nat) (sz : Coord) (bombs : Nat) :
    InvHidden (Field.build inds sz bombs) := by
  show (coordList sz.1 sz.2).length = hiddenCount sz.1 sz.2 _
  symm
  apply List.countP_eq_length.mpr
  intro p hp
  exact build_hiddenAt inds sz bombs p (mem_coordList.mp hp)

theorem build_cells_at {inds : List Nat} {sz : Coord} {bombs : Nat} {p : Coord}
    (hp : p.1 < sz.1 ∧ p.2 < sz.2) :
    (Field.build inds sz bombs).cells p =
      if p.2 * sz.1 + p.1 ∈ inds then some ⟨CellState.Bomb, true⟩
      else if 0 < adjacentBombs (initialGrid inds sz.1 sz.2) sz.1 sz.2 p.1 p.2 then
        some ⟨CellState.Value (adjacentBombs (initialGrid inds sz.1 sz.2) sz.1 sz.2 p.1 p.2),
          true⟩
      else some ⟨CellState.Empty, true⟩ := by
  rw [build_cells, assignValues_at (initialGrid inds sz.1 sz.2) (mem_coordList.mpr hp),
    initialGrid_inbounds hp]
  by_cases hmem : p.2 * sz.1 + p.1 ∈ inds
  · simp [hmem]
  · by_cases hn : 0 < adjacentBombs (initialGrid inds sz.1 sz.2) sz.1 sz.2 p.1 p.2
    · simp [hmem, hn]
    · simp [hmem, hn]

/-! ### Counting the sampled bomb indices -/

theorem coord_index_inj {w : Nat} {a b : Coord} (ha : a.1 < w) (hb : b.1 < w)
    (he : a.2 * w + a.1 = b.2 * w + b.1) : a = b := by
  have hw : 0 < w := lt_of_le_of_lt (Nat.zero_le _) ha
  have h1 : (a.2 * w + a.1) % w = a.1 := by
    rw [Nat.mul_comm a.2 w, Nat.mul_add_mod]
    exact Nat.mod_eq_of_lt ha
  have h2 : (b.2 * w + b.1) % w = b.1 := by
    rw [Nat.mul_comm b.2 w, Nat.mul_add_mod]
    exact Nat.mod_eq_of_lt hb
  have hx : a.1 = b.1 := by rw [← h1, ← h2, he]
  have hy : a.2 = b.2 := by
    have h4 : a.2 * w = b.2 * w := by omega
    exact Nat.eq_of_mul_eq_mul_right hw h4
  exact Prod.ext hx hy

/-- Counting, over the grid coordinates, those whose row-major index was
sampled gives back the number of sampled indices (sampling is without
replacement and within range). -/
theorem countP_coordList_mem_inds {w h : Nat} {inds : List Nat}
    (hnd : inds.Nodup) (hlt : ∀ i ∈ inds, i < w * h) :
    ((coordList w h).countP fun p => decide (p.2 * w + p.1 ∈ inds)) = inds.length := by
  rw [List.countP_eq_length_filter]
  have hLnd : ((coordList w h).filter fun p => decide (p.2 * w + p.1 ∈ inds)).Nodup :=
    (coordList_nodup w h).filter _
  have hmapnd : (((coordList w h).filter fun p => decide (p.2 * w + p.1 ∈ inds)).map
      (fun p => p.2 * w + p.1)).Nodup := by
    refine List.Nodup.map_on ?_ hLnd
    intro a hain b hbin he
    exact coord_index_inj (mem_coordList.mp (List.mem_of_mem_filter hain)).1
      (mem_coordList.mp (List.mem_of_mem_filter hbin)).1 he
  have hperm : (((coordList w h).filter fun p => decide (p.2 * w + p.1 ∈ inds)).map
      (fun p => p.2 * w + p.1)).Perm inds := by
    rw [List.perm_ext_iff_of_nodup hmapnd hnd]
    intro i
    simp only [List.mem_map, List.mem_filter, decide_eq_true_eq]
    constructor
    · rintro ⟨p, ⟨_, hpm⟩, rfl⟩
      exact hpm
    · intro hi
      have hiw : i < w * h := hlt i hi
      have hw : 0 < w := by
        rcases Nat.eq_zero_or_pos w with rfl | hw
        · omega
        · exact hw
      have hdm : i / w * w + i % w = i := by
        rw [Nat.mul_comm (i / w) w]
        exact Nat.div_add_mod i w
      refine ⟨(i % w, i / w), ⟨mem_coordList.mpr ⟨Nat.mod_lt _ hw, ?_⟩, ?_⟩, ?_⟩
      · have hmul : w * h = h * w := Nat.mul_comm w h
        exact (Nat.div_lt_iff_lt_mul hw).mpr (by omega)
      · show (i % w, i / w).2 * w + (i % w, i / w).1 ∈ inds
        dsimp only
        rw [hdm]
        exact hi
      · show (i % w, i / w).2 * w + (i % w, i / w).1 = i
        dsimp only
        rw [hdm]
  have hlen := hperm.length_eq
  rw [List.length_map] at hlen
  exact hlen

theorem build_bombPred (inds : List Nat) (sz : Coord) (bombs : Nat) {p : Coord}
    (hp : p ∈ coordList sz.1 sz.2) :
    bombOrDeathAt (Field.build inds sz bombs).cells p
      = decide (p.2 * sz.1 + p.1 ∈ inds) := by
  have hin := mem_coordList.mp hp
  unfold bombOrDeathAt
  rw [build_cells_at hin]
  by_cases hmem : p.2 * sz.1 + p.1 ∈ inds
  · simp [hmem]
  · by_cases hn : 0 < adjacentBombs (initialGrid inds sz.1 sz.2) sz.1 sz.2 p.1 p.2
    · simp [hmem, hn]
    · simp [hmem, hn]

/-- A fresh field has exactly one Bomb-state cell per sampled index
(distinct indices land on distinct cells), and no DeathBomb. -/
theorem build_bombCount (inds : List Nat) (sz : Coord) (bombs : Nat)
    (hnd : inds.Nodup) (hlt : ∀ i ∈ inds, i < sz.1 * sz.2) :
    bombCount (Field.build inds sz bombs) = inds.length := by
  show bombCountG sz.1 sz.2 (Field.build inds sz bombs).cells = inds.length
  unfold bombCountG
  rw [List.countP_congr fun p hp => by rw [build_bombPred inds sz bombs hp]]
  exact countP_coordList_mem_inds hnd hlt

/-! ### Field-level reveal lemmas -/

theorem reveal?_eq_some {F : Field} {x y : Nat} (h : (F.cells (x, y)).isSome = true) :
    F.reveal? x y = some (F.revealAt x y) := by
  simp [Field.reveal?, h]

theorem reveal?_none {F : Field} {x y : Nat} (h : F.cells (x, y) = none) :
    F.reveal? x y = none := by
  simp [Field.reveal?, h]

theorem revealAt_size (F : Field) (x y : Nat) : (F.revealAt x y).size = F.size := rfl

theorem revealAt_n_bombs (F : Field) (x y : Nat) : (F.revealAt x y).n_bombs = F.n_bombs := rfl

theorem revealAt_mouse (F : Field) (x y : Nat) : (F.revealAt x y).mouse = F.mouse := rfl

theorem revealAt_evolves (F : Field) (x y : Nat) : Evolves F.cells (F.revealAt x y).cells :=
  revealFuel_evolves F.size.1 F.size.2 (hiddenCount F.size.1 F.size.2 F.cells + 1)
    (F.cells, F.n_hidden) (x, y)

theorem revealAt_account (F : Field) (x y : Nat)
    (hdom : DomG F.size.1 F.size.2 F.cells)
    (hle : hiddenCount F.size.1 F.size.2 F.cells ≤ F.n_hidden) :
    (F.revealAt x y).n_hidden + hiddenCount F.size.1 F.size.2 F.cells
      = F.n_hidden + hiddenCount F.size.1 F.size.2 (F.revealAt x y).cells :=
  (reveal_account F.size.1 F.size.2 (hiddenCount F.size.1 F.size.2 F.cells + 1)).1
    F.cells F.n_hidden (x, y) hdom hle (Nat.le_succ _)

theorem revealAt_notHidden {F : Field} {x y : Nat} {c : Cell}
    (hc : F.cells (x, y) = some c) (hh : c.hidden = false) : F.revealAt x y = F := by
  simp only [Field.revealAt]
  rw [revealFuel_succ_notHidden hc hh]

theorem revealAt_hidden_notEmpty {F : Field} {x y : Nat} {c : Cell}
    (hc : F.cells (x, y) = some c) (hh : c.hidden = true)
    (hs : ¬ c.state = CellState.Empty) :
    F.revealAt x y =
      { F with
        cells := updateG F.cells (x, y) ⟨c.state, false⟩
        n_hidden := F.n_hidden - 1 } := by
  simp only [Field.revealAt]
  rw [revealFuel_succ_hidden_notEmpty hc hh hs]

theorem revealAt_unhides_self {F : Field} {x y : Nat}
    (hdom : DomG F.size.1 F.size.2 F.cells) :
    hiddenAt (F.revealAt x y).cells (x, y) = false :=
  revealFuel_unhides hdom (Nat.le_succ _)

theorem revealAt_cell_self {F : Field} {x y : Nat} {c : Cell}
    (hdom : DomG F.size.1 F.size.2 F.cells) (hc : F.cells (x, y) = some c) :
    (F.revealAt x y).cells (x, y) = some ⟨c.state, false⟩ := by
  obtain ⟨hid, hcell⟩ := (revealAt_evolves F x y).some_state hc
  have hfalse : hiddenAt (F.revealAt x y).cells (x, y) = false := revealAt_unhides_self hdom
  rw [hiddenAt, hcell] at hfalse
  rw [hcell]
  cases hid with
  | false => rfl
  | true => cases hfalse

theorem revealAt_unhides_neighbors {F : Field} {x y : Nat} {c : Cell}
    (hdom : DomG F.size.1 F.size.2 F.cells)
    (hc : F.cells (x, y) = some c) (hh : c.hidden = true)
    (hs : c.state = CellState.Empty) :
    ∀ q ∈ adjacent_coords F.size.1 F.size.2 x y,
      hiddenAt (F.revealAt x y).cells q = false := by
  intro q hq
  have hin : x < F.size.1 ∧ y < F.size.2 := (hdom (x, y)).mp (by rw [hc]; rfl)
  have hflip := hiddenCount_updateG_unhide hin hc hh c.state
  show hiddenAt (revealFuel F.size.1 F.size.2
    (hiddenCount F.size.1 F.size.2 F.cells + 1) (F.cells, F.n_hidden) (x, y)).1 q = false
  rw [revealFuel_succ_hidden_empty hc hh hs]
  dsimp only
  exact revealList_unhides ((evolves_updateG hc).domG hdom) (by omega) q hq

/-! ### Bomb conservation under the operations -/

theorem Evolves.bombOrDeathAt_eq {g g' : Grid} (h : Evolves g g') (q : Coord) :
    bombOrDeathAt g' q = bombOrDeathAt g q := by
  rcases h q with hq | ⟨c, hc, hc'⟩
  · rw [bombOrDeathAt, bombOrDeathAt, hq]
  · simp [bombOrDeathAt, hc, hc']

theorem revealAllCells_at (g : Grid) (p : Coord) :
    revealAllCells g p = (g p).map fun c => ⟨c.state, false⟩ := rfl

theorem revealAllCells_bombOrDeathAt (g : Grid) (q : Coord) :
    bombOrDeathAt (revealAllCells g) q = bombOrDeathAt g q := by
  rw [bombOrDeathAt, bombOrDeathAt, revealAllCells_at]
  cases g q with
  | none => rfl
  | some c => rfl

theorem revealAllCells_hidden {g : Grid} {q : Coord} {c : Cell}
    (h : revealAllCells g q = some c) : c.hidden = false := by
  rw [revealAllCells_at] at h
  cases hg : g q with
  | none => rw [hg] at h; cases h
  | some d =>
    rw [hg] at h
    have := Option.some.inj h
    rw [← this]

theorem bombCountG_congr {w h : Nat} {g g' : Grid}
    (hpt : ∀ p, bombOrDeathAt g' p = bombOrDeathAt g p) :
    bombCountG w h g' = bombCountG w h g :=
  List.countP_congr fun p _ => by rw [hpt p]

theorem updateG_deathify_bombOrDeathAt {g : Grid} {p : Coord} {c : Cell} {hid : Bool}
    (hc : g p = some c) (hb : c.state = CellState.Bomb) (q : Coord) :
    bombOrDeathAt (updateG g p ⟨CellState.DeathBomb, hid⟩) q = bombOrDeathAt g q := by
  by_cases hq : q = p
  · subst hq
    rw [bombOrDeathAt, bombOrDeathAt, updateG_self, hc]
    simp [hb]
  · rw [bombOrDeathAt, bombOrDeathAt, updateG_ne _ _ _ _ hq]

/-! ### Unpacking the constructors and the click handler -/

theorem new_eq_some {inds : List Nat} {sz : Coord} {bombs : Nat} {F : Field}
    (h : Field.new inds sz bombs = some F) :
    F = Field.build inds sz bombs ∧ ¬ sz.1 * sz.2 < bombs := by
  unfold Field.new at h
  by_cases hlt : sz.1 * sz.2 < bombs
  · rw [if_pos hlt] at h
    cases h
  · rw [if_neg hlt] at h
    exact ⟨(Option.some.inj h).symm, hlt⟩

theorem mouse_click_left_oob {F : Field} (inds : List Nat)
    (hnone : F.cells (F.mouse.1 / CELL_SIZE.1, F.mouse.2 / CELL_SIZE.2) = none) :
    F.mouse_click inds ClickButton.MouseLeft = none := by
  unfold Field.mouse_click
  dsimp only
  rw [reveal?_none hnone]

theorem mouse_click_left_bomb {F : Field} (inds : List Nat) {x y : Nat} {c1 : Cell}
    (hx : x = F.mouse.1 / CELL_SIZE.1) (hy : y = F.mouse.2 / CELL_SIZE.2)
    (hsome : (F.cells (x, y)).isSome = true)
    (hc1 : (F.revealAt x y).cells (x, y) = some c1)
    (hb : c1.state = CellState.Bomb) :
    F.mouse_click inds ClickButton.MouseLeft =
      some (Field.lose { F.revealAt x y with
        cells := updateG (F.revealAt x y).cells (x, y) ⟨CellState.DeathBomb, c1.hidden⟩ }) := by
  subst hx
  subst hy
  unfold Field.mouse_click
  dsimp only
  rw [reveal?_eq_some hsome]
  dsimp only
  rw [hc1]
  dsimp only
  rw [if_pos hb]

theorem mouse_click_left_nonbomb {F : Field} (inds : List Nat) {x y : Nat} {c1 : Cell}
    (hx : x = F.mouse.1 / CELL_SIZE.1) (hy : y = F.mouse.2 / CELL_SIZE.2)
    (hsome : (F.cells (x, y)).isSome = true)
    (hc1 : (F.revealAt x y).cells (x, y) = some c1)
    (hb : ¬ c1.state = CellState.Bomb) :
    F.mouse_click inds ClickButton.MouseLeft =
      (if (F.revealAt x y).n_hidden = (F.revealAt x y).n_bombs then
        some (F.revealAt x y).win
      else some (F.revealAt x y)) := by
  subst hx
  subst hy
  unfold Field.mouse_click
  dsimp only
  rw [reveal?_eq_some hsome]
  dsimp only
  rw [hc1]
  dsimp only
  rw [if_neg hb]

theorem mouse_click_keyR {F : Field} (inds : List Nat) :
    F.mouse_click inds ClickButton.KeyR = F.reset inds := rfl

theorem mouse_click_other {F : Field} (inds : List Nat) :
    F.mouse_click inds ClickButton.Other = some F := rfl

theorem reveal?_some_inv {F : Field} {x y : Nat} {F1 : Field}
    (h : F.reveal? x y = some F1) : F1 = F.revealAt x y := by
  by_cases hs : (F.cells (x, y)).isSome = true
  · rw [reveal?_eq_some hs] at h
    exact (Option.some.inj h).symm
  · have hnone : F.cells (x, y) = none := by
      cases hcc : F.cells (x, y) with
      | none => rfl
      | some c => rw [hcc] at hs; simp at hs
    rw [reveal?_none hnone] at h
    cases h

theorem revealAllCells_cellStateAt (g : Grid) (q : Coord) :
    cellStateAt (revealAllCells g) q = cellStateAt g q := by
  rw [cellStateAt, cellStateAt, revealAllCells_at]
  cases g q with
  | none => rfl
  | some c => rfl

/-! ## The claims -/

/-- Claim C1: the specification demands that a primary-button click whose
pointer maps outside `[0,width) × [0,height)` must not panic (no-op or
clamp).  The code has no such guard: `reveal` immediately runs
`cell_mut_at(x, y).unwrap()`, and for an absent key this panics.  Concretely,
on a 2×1 bomb-free field with the pointer at pixel `(32.0, 0.0)` — grid
coordinate `(2, 0)`, out of bounds — the embedded click handler reaches the
panicking lookup (modelled by `none`). -/
theorem C1_out_of_bounds_click_panics :
    ((Field.build [] (2, 1) 0).mouse_move (32, 0)).mouse_click [] ClickButton.MouseLeft
      = none := rfl

/-- Claim C2: the specification demands that construction with
`bombs > width * height` fail with an `InvalidConfiguration` error rather
than a panic.  The code has no validation and no error type at all:
`rand::seq::index::sample(rng, w * h, bombs)` is called first and panics
when `amount > length`.  Concretely, a 1×1 grid with 2 bombs hits that panic
(modelled by `none`). -/
theorem C2_overfull_construction_panics : Field.new [] (1, 1) 2 = none := rfl

/-- Claim C6: the single-reveal contract.  On a fully populated field whose
counter dominates the hidden count, for a present cell `c` at `(x, y)`:
revealing an already-revealed cell is a complete no-op (hence idempotent);
revealing a hidden cell clears exactly its flag and decrements `n_hidden`
once per flipped cell (`n_hidden' + hidden-before = n_hidden + hidden-after`);
a hidden `Bomb` or `Value` cell never cascades (only the clicked cell
changes, and `n_hidden` drops by exactly one); a hidden `Empty` cell
cascades into every neighbour, all of which end up revealed. -/
theorem C6_reveal_contract (F : Field) (x y : Nat) (c : Cell)
    (hdom : DomG F.size.1 F.size.2 F.cells)
    (hle : hiddenCount F.size.1 F.size.2 F.cells ≤ F.n_hidden)
    (hc : F.cells (x, y) = some c) :
    F.reveal? x y = some (F.revealAt x y) ∧
    (c.hidden = false → F.revealAt x y = F) ∧
    (c.hidden = true →
      (F.revealAt x y).cells (x, y) = some ⟨c.state, false⟩ ∧
      (F.revealAt x y).n_hidden + hiddenCount F.size.1 F.size.2 F.cells
        = F.n_hidden + hiddenCount F.size.1 F.size.2 (F.revealAt x y).cells) ∧
    (c.hidden = true → ¬ c.state = CellState.Empty →
      F.revealAt x y =
        { F with
          cells := updateG F.cells (x, y) ⟨c.state, false⟩
          n_hidden := F.n_hidden - 1 }) ∧
    (c.hidden = true → c.state = CellState.Empty →
      ∀ q ∈ adjacent_coords F.size.1 F.size.2 x y,
        hiddenAt (F.revealAt x y).cells q = false) := by
  refine ⟨reveal?_eq_some (by rw [hc]; rfl), ?_, ?_, ?_, ?_⟩
  · intro hh
    exact revealAt_notHidden hc hh
  · intro hh
    exact ⟨revealAt_cell_self hdom hc, revealAt_account F x y hdom hle⟩
  · intro hh hs
    exact revealAt_hidden_notEmpty hc hh hs
  · intro hh hs
    exact revealAt_unhides_neighbors hdom hc hh hs

/-- Witness for C6 on a concrete 2×1 field with a bomb at `(0, 0)`:
revealing the hidden `Value 1` cell at `(1, 0)` succeeds and clears exactly
its hidden flag. -/
theorem C6_witness :
    (Field.build [0] (2, 1) 1).reveal? 1 0
        = some ((Field.build [0] (2, 1) 1).revealAt 1 0) ∧
      ((Field.build [0] (2, 1) 1).revealAt 1 0).cells (1, 0)
        = some ⟨CellState.Value 1, false⟩ := by
  have h := C6_reveal_contract (Field.build [0] (2, 1) 1) 1 0 ⟨CellState.Value 1, true⟩
    (build_dom [0] (2, 1) 1) (by decide) (by decide)
  exact ⟨h.1, (h.2.2.1 rfl).1⟩

/-- Claim C7: termination of the recursive reveal.  The recursion is embedded
with a fuel bound on its depth; the theorem shows the result is the same for
any two fuel amounts that cover the number of hidden cells — i.e. the
recursion stabilises after at most `hiddenCount` nested reveals, because the
hidden flag acts as the visited set — and that no cell is ever re-hidden, so
each cell transitions hidden → revealed at most once per cascade. -/
theorem C7_reveal_terminates (w h : Nat) (g : Grid) (nh : Nat) (p : Coord) (f1 f2 : Nat)
    (hdom : DomG w h g)
    (h1 : hiddenCount w h g ≤ f1) (h2 : hiddenCount w h g ≤ f2) :
    revealFuel w h f1 (g, nh) p = revealFuel w h f2 (g, nh) p ∧
    (∀ q, hiddenAt (revealFuel w h f1 (g, nh) p).1 q = true → hiddenAt g q = true) :=
  ⟨(reveal_stable w h (hiddenCount w h g)).1 g nh p f1 f2 hdom le_rfl h1 h2,
   fun q => (revealFuel_evolves w h f1 (g, nh) p).hiddenAt_mono q⟩

/-- Witness for C7 on the concrete 2×1 field: fuel 2 and fuel 7 agree. -/
theorem C7_witness :
    revealFuel 2 1 2 ((Field.build [0] (2, 1) 1).cells, 2) (1, 0)
      = revealFuel 2 1 7 ((Field.build [0] (2, 1) 1).cells, 2) (1, 0) :=
  (C7_reveal_terminates 2 1 (Field.build [0] (2, 1) 1).cells 2 (1, 0) 2 7
    (build_dom [0] (2, 1) 1) (by decide) (by decide)).1

/-- Claim C10 (implicit): on a field satisfying the adjacency invariant
(`Empty` cells have no bomb-state neighbour), revealing a non-bomb cell
never touches any `Bomb`-state cell — in particular it never clears a bomb's
hidden flag — because the cascade only continues from `Empty` cells, whose
neighbours are bomb-free. -/
theorem C10_cascade_never_unhides_bombs (F : Field) (x y : Nat) (c : Cell)
    (hdom : DomG F.size.1 F.size.2 F.cells)
    (hsafe : AdjacencySafe F.size.1 F.size.2 F.cells)
    (hc : F.cells (x, y) = some c) (hb : c.state ≠ CellState.Bomb) :
    F.reveal? x y = some (F.revealAt x y) ∧
    ∀ q c', F.cells q = some c' → c'.state = CellState.Bomb →
      (F.revealAt x y).cells q = F.cells q := by
  refine ⟨reveal?_eq_some (by rw [hc]; rfl), ?_⟩
  intro q c' hc' hbq
  have hbomb : bombAt F.cells q = true := by
    rw [bombAt, hc']
    simp [hbq]
  have hstart : ∀ c'', F.cells (x, y) = some c'' → c''.state ≠ CellState.Bomb := by
    intro c'' hc''
    rw [hc] at hc''
    have := Option.some.inj hc''
    rw [← this]
    exact hb
  exact (reveal_protects F.size.1 F.size.2
    (hiddenCount F.size.1 F.size.2 F.cells + 1)).1 F.cells F.n_hidden (x, y)
    hdom hsafe hstart q hbomb

/-- Witness for C10 on the concrete 2×1 field: revealing the `Value 1` cell
leaves the hidden bomb at `(0, 0)` untouched. -/
theorem C10_witness :
    (Field.build [0] (2, 1) 1).reveal? 1 0
        = some ((Field.build [0] (2, 1) 1).revealAt 1 0) ∧
      ((Field.build [0] (2, 1) 1).revealAt 1 0).cells (0, 0)
        = (Field.build [0] (2, 1) 1).cells (0, 0) := by
  have h := C10_cascade_never_unhides_bombs (Field.build [0] (2, 1) 1) 1 0
    ⟨CellState.Value 1, true⟩ (build_dom [0] (2, 1) 1) (by decide) (by decide) (by decide)
  exact ⟨h.1, h.2 (0, 0) ⟨CellState.Bomb, true⟩ (by decide) rfl⟩

/-- Claim C5: in a freshly constructed field, every non-bomb cell carries
`Value n` for `n` the exact number of bomb-state cells among its in-bounds
neighbours (the up-to-8 cells sharing an edge or corner, clipped at the grid
boundary — the first two conjuncts pin the neighbour set down to exactly
that), and `Empty` when that number is zero. -/
theorem C5_fresh_adjacency (inds : List Nat) (sz : Coord) (bombs : Nat) (F : Field)
    (x y : Nat) (c : Cell)
    (hnew : Field.new inds sz bombs = some F)
    (hx : x < sz.1) (hy : y < sz.2)
    (hc : F.cells (x, y) = some c)
    (hnb : c.state ≠ CellState.Bomb) :
    (∀ q : Coord, q ∈ adjacent_coords sz.1 sz.2 x y ↔
      (q ≠ (x, y) ∧ q.1 < sz.1 ∧ q.2 < sz.2 ∧
        x ≤ q.1 + 1 ∧ q.1 ≤ x + 1 ∧ y ≤ q.2 + 1 ∧ q.2 ≤ y + 1)) ∧
    (adjacent_coords sz.1 sz.2 x y).Nodup ∧
    c.state = (if adjacentBombs F.cells sz.1 sz.2 x y = 0 then CellState.Empty
               else CellState.Value (adjacentBombs F.cells sz.1 sz.2 x y)) := by
  obtain ⟨hF, _⟩ := new_eq_some hnew
  subst hF
  refine ⟨fun q => mem_adjacent_coords, adjacent_coords_nodup .., ?_⟩
  have heq : adjacentBombs (Field.build inds sz bombs).cells sz.1 sz.2 x y
      = adjacentBombs (initialGrid inds sz.1 sz.2) sz.1 sz.2 x y :=
    List.countP_congr fun q _ => by rw [build_bombAt]
  rw [heq]
  rw [build_cells_at ⟨hx, hy⟩] at hc
  dsimp only at hc
  by_cases hmem : y * sz.1 + x ∈ inds
  · rw [if_pos hmem] at hc
    have hcc := Option.some.inj hc
    rw [← hcc] at hnb
    cases hnb rfl
  · rw [if_neg hmem] at hc
    by_cases hn : 0 < adjacentBombs (initialGrid inds sz.1 sz.2) sz.1 sz.2 x y
    · rw [if_pos hn] at hc
      have hcc := Option.some.inj hc
      rw [← hcc]
      rw [if_neg (by omega)]
    · rw [if_neg hn] at hc
      have hcc := Option.some.inj hc
      rw [← hcc]
      rw [if_pos (by omega)]

/-- Witness for C5: in the 2×1 field with its bomb at `(0, 0)`, the non-bomb
cell `(1, 0)` carries `Value 1` — the exact bomb count among its neighbours. -/
theorem C5_witness :
    (⟨CellState.Value 1, true⟩ : Cell).state
      = (if adjacentBombs (Field.build [0] (2, 1) 1).cells 2 1 1 0 = 0 then CellState.Empty
         else CellState.Value (adjacentBombs (Field.build [0] (2, 1) 1).cells 2 1 1 0)) :=
  (C5_fresh_adjacency [0] (2, 1) 1 (Field.build [0] (2, 1) 1) 1 0
    ⟨CellState.Value 1, true⟩ rfl (by decide) (by decide) (by decide) (by decide)).2.2

/-- Claim C8: a primary click on a Bomb-state cell (on a fully populated
field) turns exactly that cell into `DeathBomb`, keeps every other cell's
state — so every other bomb stays `Bomb` — and reveals 100% of the cells,
whatever their prior reveal state. -/
theorem C8_losing_click (F : Field) (inds : List Nat) (x y : Nat) (c : Cell)
    (hdom : DomG F.size.1 F.size.2 F.cells)
    (hx : x = F.mouse.1 / CELL_SIZE.1) (hy : y = F.mouse.2 / CELL_SIZE.2)
    (hc : F.cells (x, y) = some c) (hb : c.state = CellState.Bomb) :
    ∃ F1, F.mouse_click inds ClickButton.MouseLeft = some F1 ∧
      F1.cells (x, y) = some ⟨CellState.DeathBomb, false⟩ ∧
      (∀ q c', q ≠ (x, y) → F.cells q = some c' → F1.cells q = some ⟨c'.state, false⟩) ∧
      (∀ q c', F1.cells q = some c' → c'.hidden = false) := by
  have hs : (F.cells (x, y)).isSome = true := by rw [hc]; rfl
  have hc1 : (F.revealAt x y).cells (x, y) = some ⟨c.state, false⟩ :=
    revealAt_cell_self hdom hc
  have hclick := mouse_click_left_bomb inds hx hy hs hc1 hb
  refine ⟨_, hclick, ?_, ?_, ?_⟩
  · show revealAllCells (updateG (F.revealAt x y).cells (x, y)
      ⟨CellState.DeathBomb, (⟨c.state, false⟩ : Cell).hidden⟩) (x, y) = _
    rw [revealAllCells_at, updateG_self]
    rfl
  · intro q c' hqne hc'
    obtain ⟨hid, hq'⟩ := (revealAt_evolves F x y).some_state hc'
    show revealAllCells (updateG (F.revealAt x y).cells (x, y)
      ⟨CellState.DeathBomb, (⟨c.state, false⟩ : Cell).hidden⟩) q = _
    rw [revealAllCells_at, updateG_ne _ _ _ _ hqne, hq']
    rfl
  · intro q c' hc'
    exact revealAllCells_hidden hc'

/-- Witness for C8: clicking the bomb of the 2×1 field at pixel `(0, 0)`
leaves a revealed `DeathBomb` at `(0, 0)`. -/
theorem C8_witness :
    (((Field.build [0] (2, 1) 1).mouse_click [] ClickButton.MouseLeft).getD
        (Field.build [0] (2, 1) 1)).cells (0, 0)
      = some ⟨CellState.DeathBomb, false⟩ := by
  obtain ⟨F1, h1, h2, _⟩ := C8_losing_click (Field.build [0] (2, 1) 1) [] 0 0
    ⟨CellState.Bomb, true⟩ (build_dom [0] (2, 1) 1) rfl rfl (by decide) rfl
  rw [h1]
  exact h2

/-- Claim C9: a primary click on a non-bomb cell wins exactly when, after the
reveal, `n_hidden` equals the bomb count: then the result is the revealed
field with every cell unhidden (the Won transition); otherwise the click
changes nothing beyond the reveal cascade itself (the result is exactly the
revealed field, still in play). -/
theorem C9_win_check (F : Field) (inds : List Nat) (x y : Nat) (c : Cell)
    (hdom : DomG F.size.1 F.size.2 F.cells)
    (hx : x = F.mouse.1 / CELL_SIZE.1) (hy : y = F.mouse.2 / CELL_SIZE.2)
    (hc : F.cells (x, y) = some c) (hb : ¬ c.state = CellState.Bomb) :
    ((F.revealAt x y).n_hidden = F.n_bombs →
      F.mouse_click inds ClickButton.MouseLeft = some (F.revealAt x y).win ∧
      ∀ q c', (F.revealAt x y).win.cells q = some c' → c'.hidden = false) ∧
    ((F.revealAt x y).n_hidden ≠ F.n_bombs →
      F.mouse_click inds ClickButton.MouseLeft = some (F.revealAt x y)) := by
  have hs : (F.cells (x, y)).isSome = true := by rw [hc]; rfl
  have hc1 : (F.revealAt x y).cells (x, y) = some ⟨c.state, false⟩ :=
    revealAt_cell_self hdom hc
  have hclick := mouse_click_left_nonbomb inds hx hy hs hc1 hb
  constructor
  · intro heq
    have heq' : (F.revealAt x y).n_hidden = (F.revealAt x y).n_bombs :=
      heq.trans (revealAt_n_bombs F x y).symm
    rw [hclick, if_pos heq']
    exact ⟨rfl, fun q c' hc' => revealAllCells_hidden hc'⟩
  · intro hne
    have hne' : ¬ (F.revealAt x y).n_hidden = (F.revealAt x y).n_bombs :=
      fun he => hne (he.trans (revealAt_n_bombs F x y))
    rw [hclick, if_neg hne']

/-- Witness for C9: on the 2×1 field with pointer at pixel `(16, 0)` (grid
coordinate `(1, 0)`, the `Value 1` cell), the reveal leaves exactly the bomb
hidden, so the click triggers the Won transition. -/
theorem C9_witness :
    ((Field.build [0] (2, 1) 1).mouse_move (16, 0)).mouse_click [] ClickButton.MouseLeft
      = some (((Field.build [0] (2, 1) 1).mouse_move (16, 0)).revealAt 1 0).win :=
  (C9_win_check ((Field.build [0] (2, 1) 1).mouse_move (16, 0)) [] 1 0
    ⟨CellState.Value 1, true⟩ (build_dom [0] (2, 1) 1) rfl rfl (by decide) (by decide)).1
    (by decide) |>.1

/-- Claim C4: bomb conservation.  Construction from a valid sample (distinct
in-range indices, one per requested bomb) yields exactly `bombs` cells in
state `Bomb` or `DeathBomb` (distinct indices land on distinct cells);
a standalone reveal preserves that count and `n_bombs`; every click outcome
(left click with its reveal/lose/win branches, reset with a fresh valid
sample, any other button) preserves `bombCount = n_bombs`; and the losing
left click turns exactly the clicked cell from `Bomb` into `DeathBomb`,
leaving every other cell's state unchanged. -/
theorem C4_bomb_conservation :
    (∀ (inds : List Nat) (sz : Coord) (bombs : Nat) (F : Field),
      inds.Nodup → (∀ i ∈ inds, i < sz.1 * sz.2) →
      inds.length = bombs → Field.new inds sz bombs = some F →
      bombCount F = bombs ∧ F.n_bombs = bombs) ∧
    (∀ (F : Field) (x y : Nat) (F1 : Field), F.reveal? x y = some F1 →
      bombCount F1 = bombCount F ∧ F1.n_bombs = F.n_bombs) ∧
    (∀ (F : Field) (inds : List Nat) (b : ClickButton) (F1 : Field),
      (b = ClickButton.KeyR → inds.Nodup ∧ (∀ i ∈ inds, i < F.size.1 * F.size.2) ∧
        inds.length = F.n_bombs) →
      bombCount F = F.n_bombs → F.mouse_click inds b = some F1 →
      bombCount F1 = F1.n_bombs ∧ F1.n_bombs = F.n_bombs) ∧
    (∀ (F : Field) (inds : List Nat) (x y : Nat) (c : Cell) (F1 : Field),
      x = F.mouse.1 / CELL_SIZE.1 → y = F.mouse.2 / CELL_SIZE.2 →
      F.cells (x, y) = some c → c.state = CellState.Bomb →
      F.mouse_click inds ClickButton.MouseLeft = some F1 →
      cellStateAt F1.cells (x, y) = some CellState.DeathBomb ∧
      ∀ q, q ≠ (x, y) → cellStateAt F1.cells q = cellStateAt F.cells q) := by
  refine ⟨?_, ?_, ?_, ?_⟩
  · intro inds sz bombs F hnd hlt hlen hnew
    obtain ⟨hF, _⟩ := new_eq_some hnew
    subst hF
    exact ⟨(build_bombCount inds sz bombs hnd hlt).trans hlen, rfl⟩
  · intro F x y F1 hrev
    have hF1 := reveal?_some_inv hrev
    subst hF1
    constructor
    · show bombCountG F.size.1 F.size.2 (F.revealAt x y).cells
        = bombCountG F.size.1 F.size.2 F.cells
      exact bombCountG_congr fun p => (revealAt_evolves F x y).bombOrDeathAt_eq p
    · rfl
  · intro F inds b F1 hkr hbc hclick
    cases b with
    | MouseLeft =>
      by_cases hs : (F.cells (F.mouse.1 / CELL_SIZE.1, F.mouse.2 / CELL_SIZE.2)).isSome = true
      · have hs' : ((F.revealAt (F.mouse.1 / CELL_SIZE.1) (F.mouse.2 / CELL_SIZE.2)).cells
            (F.mouse.1 / CELL_SIZE.1, F.mouse.2 / CELL_SIZE.2)).isSome = true := by
          rw [(revealAt_evolves F (F.mouse.1 / CELL_SIZE.1) (F.mouse.2 / CELL_SIZE.2)).isSome_eq]
          exact hs
        obtain ⟨c1, hc1⟩ := Option.isSome_iff_exists.mp hs'
        have hbase : bombCountG F.size.1 F.size.2
            (F.revealAt (F.mouse.1 / CELL_SIZE.1) (F.mouse.2 / CELL_SIZE.2)).cells
            = bombCountG F.size.1 F.size.2 F.cells :=
          bombCountG_congr fun p =>
            (revealAt_evolves F (F.mouse.1 / CELL_SIZE.1)
              (F.mouse.2 / CELL_SIZE.2)).bombOrDeathAt_eq p
        by_cases hb : c1.state = CellState.Bomb
        · rw [mouse_click_left_bomb inds rfl rfl hs hc1 hb] at hclick
          have hF1 := Option.some.inj hclick
          subst hF1
          refine ⟨?_, rfl⟩
          show bombCountG F.size.1 F.size.2 (revealAllCells (updateG
            (F.revealAt (F.mouse.1 / CELL_SIZE.1) (F.mouse.2 / CELL_SIZE.2)).cells
            (F.mouse.1 / CELL_SIZE.1, F.mouse.2 / CELL_SIZE.2)
            ⟨CellState.DeathBomb, c1.hidden⟩)) = F.n_bombs
          have h1 : ∀ q, bombOrDeathAt (revealAllCells (updateG
              (F.revealAt (F.mouse.1 / CELL_SIZE.1) (F.mouse.2 / CELL_SIZE.2)).cells
              (F.mouse.1 / CELL_SIZE.1, F.mouse.2 / CELL_SIZE.2)
              ⟨CellState.DeathBomb, c1.hidden⟩)) q
              = bombOrDeathAt (F.revealAt (F.mouse.1 / CELL_SIZE.1)
                (F.mouse.2 / CELL_SIZE.2)).cells q := by
            intro q
            rw [revealAllCells_bombOrDeathAt]
            exact updateG_deathify_bombOrDeathAt hc1 hb q
          rw [bombCountG_congr h1, hbase]
          exact hbc
        · rw [mouse_click_left_nonbomb inds rfl rfl hs hc1 hb] at hclick
          by_cases hwin : (F.revealAt (F.mouse.1 / CELL_SIZE.1)
              (F.mouse.2 / CELL_SIZE.2)).n_hidden
              = (F.revealAt (F.mouse.1 / CELL_SIZE.1) (F.mouse.2 / CELL_SIZE.2)).n_bombs
          · rw [if_pos hwin] at hclick
            have hF1 := Option.some.inj hclick
            subst hF1
            refine ⟨?_, rfl⟩
            show bombCountG F.size.1 F.size.2 (revealAllCells
              (F.revealAt (F.mouse.1 / CELL_SIZE.1) (F.mouse.2 / CELL_SIZE.2)).cells)
              = F.n_bombs
            rw [bombCountG_congr fun q => revealAllCells_bombOrDeathAt _ q, hbase]
            exact hbc
          · rw [if_neg hwin] at hclick
            have hF1 := Option.some.inj hclick
            subst hF1
            refine ⟨?_, rfl⟩
            show bombCountG F.size.1 F.size.2
              (F.revealAt (F.mouse.1 / CELL_SIZE.1) (F.mouse.2 / CELL_SIZE.2)).cells
              = F.n_bombs
            rw [hbase]
            exact hbc
      · have hnone : F.cells (F.mouse.1 / CELL_SIZE.1, F.mouse.2 / CELL_SIZE.2) = none := by
          cases hcc : F.cells (F.mouse.1 / CELL_SIZE.1, F.mouse.2 / CELL_SIZE.2) with
          | none => rfl
          | some d => rw [hcc] at hs; simp at hs
        rw [mouse_click_left_oob inds hnone] at hclick
        cases hclick
    | KeyR =>
      obtain ⟨hnd, hlt, hlen⟩ := hkr rfl
      rw [mouse_click_keyR] at hclick
      unfold Field.reset at hclick
      rw [Option.map_eq_some'] at hclick
      obtain ⟨F2, hnew, hF1⟩ := hclick
      obtain ⟨hF2, _⟩ := new_eq_some hnew
      subst hF2
      subst hF1
      exact ⟨(build_bombCount inds F.size F.n_bombs hnd hlt).trans hlen, rfl⟩
    | Other =>
      rw [mouse_click_other] at hclick
      have hF1 := Option.some.inj hclick
      subst hF1
      exact ⟨hbc, rfl⟩
  · intro F inds x y c F1 hx hy hc hb hclick
    have hs : (F.cells (x, y)).isSome = true := by rw [hc]; rfl
    obtain ⟨hid, hc1⟩ := (revealAt_evolves F x y).some_state hc
    have hb1 : (⟨c.state, hid⟩ : Cell).state = CellState.Bomb := hb
    rw [mouse_click_left_bomb inds hx hy hs hc1 hb1] at hclick
    have hF1 := Option.some.inj hclick
    subst hF1
    constructor
    · show cellStateAt (revealAllCells (updateG (F.revealAt x y).cells (x, y)
        ⟨CellState.DeathBomb, (⟨c.state, hid⟩ : Cell).hidden⟩)) (x, y) = _
      rw [revealAllCells_cellStateAt, cellStateAt, updateG_self]
      rfl
    · intro q hqne
      show cellStateAt (revealAllCells (updateG (F.revealAt x y).cells (x, y)
        ⟨CellState.DeathBomb, (⟨c.state, hid⟩ : Cell).hidden⟩)) q = _
      rw [revealAllCells_cellStateAt, cellStateAt, updateG_ne _ _ _ _ hqne,
        ← cellStateAt, (revealAt_evolves F x y).cellStateAt_eq q]

/-- Witness for C4 on the 2×1 field built from the sampled index list `[0]`:
exactly one bomb-state cell. -/
theorem C4_witness :
    bombCount (Field.build [0] (2, 1) 1) = 1 ∧ (Field.build [0] (2, 1) 1).n_bombs = 1 :=
  C4_bomb_conservation.1 [0] (2, 1) 1 (Field.build [0] (2, 1) 1)
    (by decide) (by decide) rfl rfl

/-- Counterexample to claim C3 as stated: the claim asserts
`n_hidden = number of hidden cells` after EVERY operation, including the
lose and win transitions.  But `Field::lose` / `Field::win` clear every
hidden flag without updating `n_hidden`.  Concretely: on the 2×1 field with
its bomb at `(0, 0)` (2 hidden cells, `n_hidden = 2`), the losing click at
pixel `(0, 0)` reveals the bomb (`n_hidden` becomes 1) and then `lose`
reveals all cells — afterwards `n_hidden = 1` while no cell is hidden
(the true count is 0). -/
theorem C3_counterexample :
    (((Field.build [0] (2, 1) 1).mouse_click [] ClickButton.MouseLeft).isSome = true) ∧
    ((((Field.build [0] (2, 1) 1).mouse_click [] ClickButton.MouseLeft).getD
        (Field.build [0] (2, 1) 1)).n_hidden = 1) ∧
    (hiddenCount
      ((((Field.build [0] (2, 1) 1).mouse_click [] ClickButton.MouseLeft).getD
        (Field.build [0] (2, 1) 1)).size.1)
      ((((Field.build [0] (2, 1) 1).mouse_click [] ClickButton.MouseLeft).getD
        (Field.build [0] (2, 1) 1)).size.2)
      ((((Field.build [0] (2, 1) 1).mouse_click [] ClickButton.MouseLeft).getD
        (Field.build [0] (2, 1) 1)).cells) = 0) := by
  refine ⟨?_, ?_, ?_⟩ <;> decide

/-- Claim C3, amended: `n_hidden` equals the number of hidden cells after
construction, after every reveal, after every left click that triggers
neither the lose nor the win transition, after reset, and after any other
button event — but NOT after the lose/win transitions, which reveal every
cell while leaving `n_hidden` at its pre-transition value (see the
counterexample). -/
theorem C3_hidden_counter_amended :
    (∀ (inds : List Nat) (sz : Coord) (bombs : Nat) (F : Field),
      Field.new inds sz bombs = some F → InvHidden F) ∧
    (∀ (F : Field) (x y : Nat) (F1 : Field), DomG F.size.1 F.size.2 F.cells →
      InvHidden F → F.reveal? x y = some F1 → InvHidden F1) ∧
    (∀ (F : Field) (inds : List Nat) (F1 : Field), DomG F.size.1 F.size.2 F.cells →
      InvHidden F →
      cellStateAt F.cells (F.mouse.1 / CELL_SIZE.1, F.mouse.2 / CELL_SIZE.2)
        ≠ some CellState.Bomb →
      (F.revealAt (F.mouse.1 / CELL_SIZE.1) (F.mouse.2 / CELL_SIZE.2)).n_hidden
        ≠ F.n_bombs →
      F.mouse_click inds ClickButton.MouseLeft = some F1 → InvHidden F1) ∧
    (∀ (F : Field) (inds : List Nat) (F1 : Field),
      F.mouse_click inds ClickButton.KeyR = some F1 → InvHidden F1) ∧
    (∀ (F : Field) (inds : List Nat) (F1 : Field), InvHidden F →
      F.mouse_click inds ClickButton.Other = some F1 → InvHidden F1) := by
  have hrev : ∀ (F : Field) (x y : Nat), DomG F.size.1 F.size.2 F.cells →
      InvHidden F → InvHidden (F.revealAt x y) := by
    intro F x y hdom hinv
    have hacc := revealAt_account F x y hdom (le_of_eq hinv.symm)
    show (F.revealAt x y).n_hidden
      = hiddenCount (F.revealAt x y).size.1 (F.revealAt x y).size.2 (F.revealAt x y).cells
    rw [revealAt_size]
    have hF : F.n_hidden = hiddenCount F.size.1 F.size.2 F.cells := hinv
    omega
  refine ⟨?_, ?_, ?_, ?_, ?_⟩
  · intro inds sz bombs F hnew
    obtain ⟨hF, _⟩ := new_eq_some hnew
    subst hF
    exact build_invHidden inds sz bombs
  · intro F x y F1 hdom hinv hrevs
    have hF1 := reveal?_some_inv hrevs
    subst hF1
    exact hrev F x y hdom hinv
  · intro F inds F1 hdom hinv hnotbomb hne hclick
    by_cases hs : (F.cells (F.mouse.1 / CELL_SIZE.1, F.mouse.2 / CELL_SIZE.2)).isSome = true
    · have hs' : ((F.revealAt (F.mouse.1 / CELL_SIZE.1) (F.mouse.2 / CELL_SIZE.2)).cells
          (F.mouse.1 / CELL_SIZE.1, F.mouse.2 / CELL_SIZE.2)).isSome = true := by
        rw [(revealAt_evolves F (F.mouse.1 / CELL_SIZE.1)
          (F.mouse.2 / CELL_SIZE.2)).isSome_eq]
        exact hs
      obtain ⟨c1, hc1⟩ := Option.isSome_iff_exists.mp hs'
      have hb : ¬ c1.state = CellState.Bomb := by
        intro hb1
        apply hnotbomb
        rw [← (revealAt_evolves F (F.mouse.1 / CELL_SIZE.1)
          (F.mouse.2 / CELL_SIZE.2)).cellStateAt_eq]
        rw [cellStateAt, hc1]
        simp [hb1]
      rw [mouse_click_left_nonbomb inds rfl rfl hs hc1 hb] at hclick
      rw [if_neg (fun he => hne (he.trans (revealAt_n_bombs F _ _)))] at hclick
      have hF1 := Option.some.inj hclick
      subst hF1
      exact hrev F _ _ hdom hinv
    · have hnone : F.cells (F.mouse.1 / CELL_SIZE.1, F.mouse.2 / CELL_SIZE.2) = none := by
        cases hcc : F.cells (F.mouse.1 / CELL_SIZE.1, F.mouse.2 / CELL_SIZE.2) with
        | none => rfl
        | some d => rw [hcc] at hs; simp at hs
      rw [mouse_click_left_oob inds hnone] at hclick
      cases hclick
  · intro F inds F1 hclick
    rw [mouse_click_keyR] at hclick
    unfold Field.reset at hclick
    rw [Option.map_eq_some'] at hclick
    obtain ⟨F2, hnew, hF1⟩ := hclick
    obtain ⟨hF2, _⟩ := new_eq_some hnew
    subst hF2
    subst hF1
    exact build_invHidden inds F.size F.n_bombs
  · intro F inds F1 hinv hclick
    rw [mouse_click_other] at hclick
    have hF1 := Option.some.inj hclick
    subst hF1
    exact hinv

/-- Witness for the amended C3: the invariant holds for the freshly built
2×1 field and is preserved by revealing its `Value 1` cell. -/
theorem C3_witness :
    InvHidden (Field.build [0] (2, 1) 1) ∧
      InvHidden ((Field.build [0] (2, 1) 1).revealAt 1 0) :=
  ⟨C3_hidden_counter_amended.1 [0] (2, 1) 1 (Field.build [0] (2, 1) 1) rfl,
   C3_hidden_counter_amended.2.1 (Field.build [0] (2, 1) 1) 1 0
     ((Field.build [0] (2, 1) 1).revealAt 1 0) (build_dom [0] (2, 1) 1)
     (by decide) rfl⟩

end Minesweeper
